import Mathlib

/-!
Verification of the analytical core of the industrial performance monitor
(`backend/app/services/oee.py`, `bottleneck.py`, `scheduler.py`).

Shallow embedding conventions:
* Timestamps and durations are rationals (`ℚ`), measured in minutes; the
  Python code stores `datetime`s and converts differences to minutes via
  `total_seconds() / 60`, a linear bijection we inline.
* Float arithmetic of the source is modelled by exact rational arithmetic.
* Entity identifiers (strings such as "R1", "SO001" in the source) are
  abstracted to `ℕ`, a type with decidable equality and a linear order
  (the `order_by(Resource.id)` query only needs an ascending order on ids).
* SQLAlchemy queries over tables become `List.filter` / `List.find?` /
  `List.insertionSort` over the lists held in a `DB` snapshot record.
  `insertionSort` is a stable sort, like Python's `sort`/`sorted` and the
  database `ORDER BY` used through it.
* Python dicts keyed by id with `get(key, default)` access become total
  functions updated with `Function.update`, or explicit folds.
* A Python function that can raise becomes `Except String` / `Option`.
-/

/-- Python's built-in `round` on a rational: round half to even
(banker's rounding), returning an integer. -/
def pyRound (q : ℚ) : ℤ :=
  let f := ⌊q⌋
  let r := q - (f : ℚ)
  if r < 1/2 then f
  else if 1/2 < r then f + 1
  else if f % 2 = 0 then f else f + 1

/-- `oee.py` `_minutes`: minutes between two timestamps, clamped to `≥ 0`. -/
def _minutes (dt_start dt_end : ℚ) : ℚ := max 0 (dt_end - dt_start)

/-- `oee.py` `_overlap`: overlap duration in minutes between
`[a_start, a_end]` and `[b_start, b_end]`. -/
def _overlap (a_start a_end b_start b_end : ℚ) : ℚ :=
  let s := max a_start b_start
  let e := min a_end b_end
  if s < e then _minutes s e else 0

/-- `models.Resource` (ids abstracted to `ℕ`). -/
structure Resource where
  id : ℕ
  name : String
  type : String
  is_active : Bool
deriving DecidableEq, Repr

/-- Machine state values `RUN/STOP/IDLE/SETUP` stored in
`models.MachineState.state`. -/
inductive MState where
  | RUN
  | STOP
  | IDLE
  | SETUP
deriving DecidableEq, Repr

/-- `models.MachineState` interval (timestamps in minutes). -/
structure MachineState where
  resource_id : ℕ
  ts_start : ℚ
  ts_end : ℚ
  state : MState
  reason_code : Option ℕ
deriving DecidableEq, Repr

/-- `models.ProductionCount` bucket. -/
structure ProductionCount where
  resource_id : ℕ
  ts_start : ℚ
  ts_end : ℚ
  good : ℤ
  scrap : ℤ
  total : ℤ
  ideal_rate_per_min : ℚ
deriving DecidableEq, Repr

/-- `models.Routing` (the `name` column is irrelevant to the algorithms). -/
structure Routing where
  id : ℕ
  family_id : ℕ
deriving DecidableEq, Repr

/-- `models.RoutingStep`; `setup_min` is an integer column and
`run_min_per_unit` a float column, both used as numbers (the scheduler
casts through `float`), so both are modelled as `ℚ`.  `yield_expected`
is unused by the algorithms and omitted. -/
structure RoutingStep where
  routing_id : ℕ
  seq : ℤ
  resource_id : ℕ
  setup_min : ℚ
  run_min_per_unit : ℚ
deriving DecidableEq, Repr

/-- `models.SalesOrder`. -/
structure SalesOrder where
  id : ℕ
  family_id : ℕ
  quantity : ℤ
  priority : ℤ
  release_date : Option ℚ
  due_date : ℚ
deriving DecidableEq, Repr

/-- Snapshot of the database tables the three services read. -/
structure DB where
  resources : List Resource
  machine_states : List MachineState
  production_counts : List ProductionCount
  routings : List Routing
  routing_steps : List RoutingStep
  orders : List SalesOrder
deriving Repr

/-- `oee.OeeResult`. -/
structure OeeResult where
  resource_id : ℕ
  window_start : ℚ
  window_end : ℚ
  planned_min : ℚ
  run_min : ℚ
  stop_min : ℚ
  good : ℤ
  scrap : ℤ
  total : ℤ
  availability : ℚ
  performance : ℚ
  quality : ℚ
  oee : ℚ
deriving DecidableEq, Repr

/-- The machine-state query of `compute_oee`: rows of the resource whose
interval overlaps the window with strict inequalities. -/
def oeeStates (db : DB) (resource_id : ℕ) (start e : ℚ) : List MachineState :=
  db.machine_states.filter
    (fun s => s.resource_id == resource_id
      && decide (start < s.ts_end) && decide (s.ts_start < e))

/-- The production-count query of `compute_oee`. -/
def oeeCounts (db : DB) (resource_id : ℕ) (start e : ℚ) : List ProductionCount :=
  db.production_counts.filter
    (fun c => c.resource_id == resource_id
      && decide (start < c.ts_end) && decide (c.ts_start < e))

/-- The pro-rating fraction `frac = ol_min / bucket_min` (0 for a
zero-duration bucket) used for one production-count bucket. -/
def bucketFrac (c : ProductionCount) (start e : ℚ) : ℚ :=
  let ol_min := _overlap c.ts_start c.ts_end start e
  let bucket_min := _minutes c.ts_start c.ts_end
  if 0 < bucket_min then ol_min / bucket_min else 0

/-- Accumulated `run_min` of `compute_oee`: summed window overlap of the
fetched states in state `RUN`. -/
def oeeRunMin (db : DB) (resource_id : ℕ) (start e : ℚ) : ℚ :=
  (((oeeStates db resource_id start e).filter (fun s => s.state == MState.RUN)).map
    (fun s => _overlap s.ts_start s.ts_end start e)).sum

/-- Accumulated `stop_min` of `compute_oee`. -/
def oeeStopMin (db : DB) (resource_id : ℕ) (start e : ℚ) : ℚ :=
  (((oeeStates db resource_id start e).filter (fun s => s.state == MState.STOP)).map
    (fun s => _overlap s.ts_start s.ts_end start e)).sum

/-- Accumulated pro-rated `good` count of `compute_oee`
(`good += int(round(c.good * frac))` per bucket). -/
def oeeGood (db : DB) (resource_id : ℕ) (start e : ℚ) : ℤ :=
  ((oeeCounts db resource_id start e).map
    (fun c => pyRound ((c.good : ℚ) * bucketFrac c start e))).sum

/-- Accumulated pro-rated `scrap` count of `compute_oee`. -/
def oeeScrap (db : DB) (resource_id : ℕ) (start e : ℚ) : ℤ :=
  ((oeeCounts db resource_id start e).map
    (fun c => pyRound ((c.scrap : ℚ) * bucketFrac c start e))).sum

/-- Accumulated pro-rated `total` count of `compute_oee`. -/
def oeeTotal (db : DB) (resource_id : ℕ) (start e : ℚ) : ℤ :=
  ((oeeCounts db resource_id start e).map
    (fun c => pyRound ((c.total : ℚ) * bucketFrac c start e))).sum

/-- Accumulated `ideal_units` of `compute_oee`
(`ideal_units += c.ideal_rate_per_min * ol_min` per bucket). -/
def oeeIdealUnits (db : DB) (resource_id : ℕ) (start e : ℚ) : ℚ :=
  ((oeeCounts db resource_id start e).map
    (fun c => c.ideal_rate_per_min * _overlap c.ts_start c.ts_end start e)).sum

/-- `oee.compute_oee`.  The Python accumulation loops over the query
results become the sums named above. -/
def compute_oee (db : DB) (resource_id : ℕ) (start e : ℚ) : OeeResult :=
  let planned_min := _minutes start e
  let run_min := oeeRunMin db resource_id start e
  let availability := if 0 < planned_min then run_min / planned_min else 0
  let good := oeeGood db resource_id start e
  let total := oeeTotal db resource_id start e
  let ideal_units := oeeIdealUnits db resource_id start e
  let quality := if 0 < total then (good : ℚ) / (total : ℚ) else 0
  let performance := if 0 < ideal_units then (total : ℚ) / ideal_units else 0
  let oee := availability * performance * quality
  { resource_id := resource_id
    window_start := start
    window_end := e
    planned_min := planned_min
    run_min := run_min
    stop_min := oeeStopMin db resource_id start e
    good := good
    scrap := oeeScrap db resource_id start e
    total := total
    availability := availability
    performance := performance
    quality := quality
    oee := oee }

/-- One entry of the ranking list built by `detect_bottleneck_v1`
(the per-resource dict with its `signals` sub-dict flattened). -/
structure RankItem where
  resource_id : ℕ
  name : String
  score : ℚ
  run_share : ℚ
  stop_share : ℚ
  availability : ℚ
  performance : ℚ
  quality : ℚ
  oee : ℚ
deriving DecidableEq, Repr

/-- One `{"reason": r, "stop_min": m}` entry of the top-STOP-reason list;
a reason key of `none` is the `"UNKNOWN"` bucket of the source. -/
structure ReasonEntry where
  reason : Option ℕ
  stop_min : ℚ
deriving DecidableEq, Repr

/-- `bottleneck.BottleneckResult`.  Of the `explain` dict only the
computed `top_stop_reasons` list is kept; its other entries are constant
strings and the winner's signals, which already appear in the ranking. -/
structure BottleneckResult where
  window_start : ℚ
  window_end : ℚ
  winner_id : ℕ
  winner_name : String
  score : ℚ
  top_stop_reasons : List ReasonEntry
  ranking : List RankItem
deriving Repr

/-- Dict accumulation `buckets[key] = buckets.get(key, 0.0) + m` on an
association list in insertion order. -/
def addReason (buckets : List (Option ℕ × ℚ)) (key : Option ℕ) (m : ℚ) :
    List (Option ℕ × ℚ) :=
  if buckets.any (fun p => p.1 == key) then
    buckets.map (fun p => if p.1 == key then (p.1, p.2 + m) else p)
  else buckets ++ [(key, m)]

/-- Relation ordering reason buckets by minutes descending
(`sorted(..., key=lambda x: x[1], reverse=True)`). -/
def reasonGE (a b : Option ℕ × ℚ) : Prop := b.2 ≤ a.2

instance : DecidableRel reasonGE := fun a b => by
  unfold reasonGE; infer_instance

/-- `bottleneck._top_reasons`: top `k` STOP reasons by total overlapping
STOP minutes within the window.  Its local `minutes`/`overlap` helpers are
verbatim copies of the ones in `oee.py`, so the shared embeddings are used. -/
def _top_reasons (db : DB) (resource_id : ℕ) (start e : ℚ) (k : ℕ) :
    List ReasonEntry :=
  let states := db.machine_states.filter
    (fun s => s.resource_id == resource_id
      && decide (start < s.ts_end) && decide (s.ts_start < e)
      && s.state == MState.STOP)
  let buckets := states.foldl
    (fun acc s => addReason acc s.reason_code (_overlap s.ts_start s.ts_end start e)) []
  let top := (List.insertionSort reasonGE buckets).take k
  top.map (fun p => { reason := p.1, stop_min := p.2 })

/-- The per-resource ranking item of `detect_bottleneck_v1`, scores per
`score = 0.8 * run_ratio + 0.2 * stop_ratio` with
`planned = max(oee.planned_min, 1e-9)`. -/
def itemOf (db : DB) (start e : ℚ) (r : Resource) : RankItem :=
  let oee := compute_oee db r.id start e
  let planned := max oee.planned_min (1e-9)
  let rr := oee.run_min / planned
  let sr := oee.stop_min / planned
  let score := (0.8 : ℚ) * rr + (0.2 : ℚ) * sr
  { resource_id := r.id
    name := r.name
    score := score
    run_share := rr
    stop_share := sr
    availability := oee.availability
    performance := oee.performance
    quality := oee.quality
    oee := oee.oee }

/-- The running-best update `if best is None or score > best["score"]`. -/
def bestStep (b x : RankItem) : RankItem := if b.score < x.score then x else b

/-- Ascending-id relation used for `order_by(models.Resource.id)`. -/
def idLE (a b : Resource) : Prop := a.id ≤ b.id

instance : DecidableRel idLE := fun a b => by
  unfold idLE; infer_instance

/-- The iteration list of `detect_bottleneck_v1`: active resources in
resource-id ascending order. -/
def sortedActives (db : DB) : List Resource :=
  List.insertionSort idLE (db.resources.filter (fun r => r.is_active))

/-- Score-descending relation for `ranking.sort(key=..., reverse=True)`. -/
def scoreGE (a b : RankItem) : Prop := b.score ≤ a.score

instance : DecidableRel scoreGE := fun a b => by
  unfold scoreGE; infer_instance

/-- `bottleneck.detect_bottleneck_v1`.  The single Python loop both
appends the ranking item of each active resource and keeps the running
best; this is split into a `map` and a `foldl` over the same iteration
list.  When there is no active resource, `best` stays `None` and the
source crashes on `best["resource_id"]`; that never-returning path is the
`none` result. -/
def detect_bottleneck_v1 (db : DB) (start e : ℚ) : Option BottleneckResult :=
  let resources := sortedActives db
  let ranking := resources.map (itemOf db start e)
  let best := ranking.foldl
    (fun acc item =>
      match acc with
      | none => some item
      | some b => some (bestStep b item)) none
  match best with
  | none => none
  | some b =>
      some { window_start := start
             window_end := e
             winner_id := b.resource_id
             winner_name := b.name
             score := b.score
             top_stop_reasons := _top_reasons db b.resource_id start e 3
             ranking := List.insertionSort scoreGE ranking }

/-- One entry of the `ops_out` list of `scheduler.plan_schedule`. -/
structure OpRec where
  order_id : ℕ
  routing_id : ℕ
  step_seq : ℤ
  resource_id : ℕ
  start_ts : ℚ
  end_ts : ℚ
  setup_min : ℚ
  run_min_per_unit : ℚ
  quantity : ℤ
  due_date : ℚ
  priority : ℤ
deriving DecidableEq, Repr

/-- One `{"order_id": ..., "tardy_min": ...}` entry of the lateness report. -/
structure LatenessRec where
  order_id : ℕ
  tardy_min : ℚ
deriving DecidableEq, Repr

/-- The plan dict returned by `plan_schedule`. -/
structure Plan where
  generated_at : ℚ
  ops : List OpRec
  lateness : List LatenessRec
deriving Repr

/-- `order_by(due_date.asc(), priority.desc())`: due date ascending,
priority descending on ties. -/
def orderLE (o1 o2 : SalesOrder) : Prop :=
  o1.due_date < o2.due_date ∨ (o1.due_date = o2.due_date ∧ o2.priority ≤ o1.priority)

instance : DecidableRel orderLE := fun o1 o2 => by
  unfold orderLE; infer_instance

/-- `order_by(RoutingStep.seq.asc())`. -/
def seqLE (a b : RoutingStep) : Prop := a.seq ≤ b.seq

instance : DecidableRel seqLE := fun a b => by
  unfold seqLE; infer_instance

/-- The first routing whose `family_id` matches
(`query(Routing).filter(...).first()`). -/
def routingFor (db : DB) (family_id : ℕ) : Option Routing :=
  db.routings.find? (fun r => r.family_id == family_id)

/-- The steps of a routing in ascending `seq`. -/
def stepsFor (db : DB) (routing_id : ℕ) : List RoutingStep :=
  List.insertionSort seqLE (db.routing_steps.filter (fun s => s.routing_id == routing_id))

/-- The inner step loop of `plan_schedule` for one order: given the
cursor `prev_end` and the `next_free` availability map, schedule the
steps in sequence, returning the emitted operations and the updated map.
`next_free` is total with every not-yet-touched resource mapped to `now`,
which renders both the initialisation `next_free[r.id] = now` for known
resources and the `next_free.get(s.resource_id, now)` fallback. -/
def schedSteps (o : SalesOrder) (routing_id : ℕ) :
    List RoutingStep → ℚ → (ℕ → ℚ) → List OpRec × (ℕ → ℚ)
  | [], _, next_free => ([], next_free)
  | s :: rest, prev_end, next_free =>
      let machine_ready := next_free s.resource_id
      let start := max prev_end machine_ready
      let duration_min := s.setup_min + (o.quantity : ℚ) * s.run_min_per_unit
      let e := start + duration_min
      let op : OpRec :=
        { order_id := o.id
          routing_id := routing_id
          step_seq := s.seq
          resource_id := s.resource_id
          start_ts := start
          end_ts := e
          setup_min := s.setup_min
          run_min_per_unit := s.run_min_per_unit
          quantity := o.quantity
          due_date := o.due_date
          priority := o.priority }
      let next := schedSteps o routing_id rest e (Function.update next_free s.resource_id e)
      (op :: next.1, next.2)

/-- The outer order loop of `plan_schedule`.  The `none` branch of the
routing lookup is unreachable whenever `plan_schedule` reaches this loop
(the resolution pass has already raised otherwise). -/
def schedOrders (db : DB) (now : ℚ) :
    List SalesOrder → (ℕ → ℚ) → List OpRec × (ℕ → ℚ)
  | [], next_free => ([], next_free)
  | o :: rest, next_free =>
      match routingFor db o.family_id with
      | none => schedOrders db now rest next_free
      | some routing =>
          let prev_end := o.release_date.getD now
          let this := schedSteps o routing.id (stepsFor db routing.id) prev_end next_free
          let later := schedOrders db now rest this.2
          (this.1 ++ later.1, later.2)

/-- The `last_end` dict entry for one order id: maximum `end_ts` of its
operations, seeded with `now` (`max(last_end.get(oid, now), op.end_ts)`). -/
def lastEnd (ops : List OpRec) (now : ℚ) (order_id : ℕ) : ℚ :=
  (ops.filter (fun op => op.order_id == order_id)).foldl
    (fun acc op => max acc op.end_ts) now

/-- Tardy-minutes descending (`lateness.sort(key=..., reverse=True)`). -/
def tardyGE (a b : LatenessRec) : Prop := b.tardy_min ≤ a.tardy_min

instance : DecidableRel tardyGE := fun a b => by
  unfold tardyGE; infer_instance

/-- `scheduler.plan_schedule`.  The routing-resolution loop of the source
builds `family_to_routing` from the first match per family and raises
`ValueError` at the first order whose family has no routing; it is
rendered as the guard below (the run errors iff some order's family has
no routing, and the later lookups coincide with `routingFor`). -/
def plan_schedule (db : DB) (now : ℚ) : Except String Plan :=
  let orders := List.insertionSort orderLE db.orders
  if orders.all (fun o => (routingFor db o.family_id).isSome) then
    let ops := (schedOrders db now orders (fun _ => now)).1
    let lateness :=
      (orders.filter (fun o => ops.any (fun op => op.order_id == o.id))).map
        (fun o =>
          { order_id := o.id
            tardy_min := max 0 (lastEnd ops now o.id - o.due_date) })
    Except.ok
      { generated_at := now
        ops := ops
        lateness := List.insertionSort tardyGE lateness }
  else Except.error "No routing found for family_id"

theorem compute_oee_planned_min (db : DB) (rid : ℕ) (s e : ℚ) :
    (compute_oee db rid s e).planned_min = _minutes s e := rfl

theorem compute_oee_run_min (db : DB) (rid : ℕ) (s e : ℚ) :
    (compute_oee db rid s e).run_min = oeeRunMin db rid s e := rfl

theorem compute_oee_stop_min (db : DB) (rid : ℕ) (s e : ℚ) :
    (compute_oee db rid s e).stop_min = oeeStopMin db rid s e := rfl

theorem compute_oee_good (db : DB) (rid : ℕ) (s e : ℚ) :
    (compute_oee db rid s e).good = oeeGood db rid s e := rfl

theorem compute_oee_scrap (db : DB) (rid : ℕ) (s e : ℚ) :
    (compute_oee db rid s e).scrap = oeeScrap db rid s e := rfl

theorem compute_oee_total (db : DB) (rid : ℕ) (s e : ℚ) :
    (compute_oee db rid s e).total = oeeTotal db rid s e := rfl

theorem compute_oee_availability (db : DB) (rid : ℕ) (s e : ℚ) :
    (compute_oee db rid s e).availability
      = if 0 < _minutes s e then oeeRunMin db rid s e / _minutes s e else 0 := rfl

theorem compute_oee_quality (db : DB) (rid : ℕ) (s e : ℚ) :
    (compute_oee db rid s e).quality
      = if 0 < oeeTotal db rid s e
        then (oeeGood db rid s e : ℚ) / (oeeTotal db rid s e : ℚ) else 0 := rfl

theorem compute_oee_performance (db : DB) (rid : ℕ) (s e : ℚ) :
    (compute_oee db rid s e).performance
      = if 0 < oeeIdealUnits db rid s e
        then (oeeTotal db rid s e : ℚ) / oeeIdealUnits db rid s e else 0 := rfl

theorem compute_oee_oee (db : DB) (rid : ℕ) (s e : ℚ) :
    (compute_oee db rid s e).oee
      = (compute_oee db rid s e).availability * (compute_oee db rid s e).performance
          * (compute_oee db rid s e).quality := rfl

theorem minutes_nonneg (a b : ℚ) : 0 ≤ _minutes a b := le_max_left 0 _

theorem overlap_nonneg (a b c d : ℚ) : 0 ≤ _overlap a b c d := by
  simp only [_overlap]
  split
  · exact minutes_nonneg _ _
  · exact le_refl 0

theorem overlap_comm (a b c d : ℚ) : _overlap a b c d = _overlap c d a b := by
  unfold _overlap
  rw [max_comm a c, min_comm b d]

theorem overlap_eq_zero_of_le (a b c d : ℚ) (h : min b d ≤ max a c) :
    _overlap a b c d = 0 := by
  unfold _overlap
  rw [if_neg (not_lt.mpr h)]

theorem overlap_le_min (a b c d : ℚ) :
    _overlap a b c d ≤ min (_minutes a b) (_minutes c d) := by
  simp only [_overlap]
  split
  · next h =>
    have h1 : min b d - max a c ≤ b - a := by
      have := min_le_left b d
      have := le_max_left a c
      linarith
    have h2 : min b d - max a c ≤ d - c := by
      have := min_le_right b d
      have := le_max_right a c
      linarith
    unfold _minutes
    have h0 : 0 ≤ min b d - max a c := by linarith
    rw [max_eq_right h0]
    exact le_min (le_max_of_le_right h1) (le_max_of_le_right h2)
  · exact le_min (minutes_nonneg a b) (minutes_nonneg c d)

theorem pyRound_zero : pyRound 0 = 0 := by
  norm_num [pyRound]

theorem pyRound_intCast (n : ℤ) : pyRound (n : ℚ) = n := by
  norm_num [pyRound, Int.floor_intCast]

theorem pyRound_nonneg {q : ℚ} (h : 0 ≤ q) : 0 ≤ pyRound q := by
  have h0 : (0 : ℤ) ≤ ⌊q⌋ := Int.floor_nonneg.mpr h
  simp only [pyRound]
  split_ifs <;> omega

theorem pyRound_mono {p q : ℚ} (h : p ≤ q) : pyRound p ≤ pyRound q := by
  have hf : ⌊p⌋ ≤ ⌊q⌋ := Int.floor_mono h
  rcases eq_or_lt_of_le hf with heq | hlt
  · have hr : p - (⌊p⌋ : ℚ) ≤ q - (⌊p⌋ : ℚ) := by linarith
    simp only [pyRound, ← heq]
    split_ifs <;> first | omega | linarith
  · simp only [pyRound]
    split_ifs <;> omega

/-- Claim C7: `_overlap` is symmetric in swapping the two intervals,
bounded by the length of each interval, zero for disjoint or degenerate
intervals — including intervals that only touch at a shared endpoint —
and `_minutes` is never negative, even on an inverted pair. -/
theorem overlap_minutes_algebra (a b c d : ℚ) :
    _overlap a b c d = _overlap c d a b
    ∧ _overlap a b c d ≤ min (_minutes a b) (_minutes c d)
    ∧ (min b d ≤ max a c → _overlap a b c d = 0)
    ∧ (a = b ∨ c = d → _overlap a b c d = 0)
    ∧ (b = c ∨ d = a → _overlap a b c d = 0)
    ∧ 0 ≤ _minutes a b := by
  refine ⟨overlap_comm a b c d, overlap_le_min a b c d, overlap_eq_zero_of_le a b c d,
    ?_, ?_, minutes_nonneg a b⟩
  all_goals
    rintro (rfl | rfl) <;>
      · apply overlap_eq_zero_of_le
        first
        | exact le_max_of_le_left (min_le_left _ _)
        | exact le_max_of_le_left (min_le_right _ _)
        | exact le_max_of_le_right (min_le_left _ _)
        | exact le_max_of_le_right (min_le_right _ _)

theorem overlap_minutes_algebra_witness :
    _overlap 0 2 2 5 = 0 ∧ _overlap 1 1 0 5 = 0 ∧ _overlap 0 1 3 4 = 0 :=
  ⟨(overlap_minutes_algebra 0 2 2 5).2.2.2.2.1 (Or.inl rfl),
   (overlap_minutes_algebra 1 1 0 5).2.2.2.1 (Or.inl rfl),
   (overlap_minutes_algebra 0 1 3 4).2.2.1 (by norm_num)⟩

theorem overlap_window_degenerate (x y s e : ℚ) (h : e ≤ s) :
    _overlap x y s e = 0 :=
  overlap_eq_zero_of_le x y s e
    (le_trans (min_le_right y e) (le_trans h (le_max_right x s)))

theorem bucketFrac_window_degenerate (c : ProductionCount) {s e : ℚ} (h : e ≤ s) :
    bucketFrac c s e = 0 := by
  simp only [bucketFrac]
  rw [overlap_window_degenerate _ _ _ _ h]
  split <;> simp

theorem oeeRunMin_degenerate (db : DB) (rid : ℕ) {s e : ℚ} (h : e ≤ s) :
    oeeRunMin db rid s e = 0 := by
  apply List.sum_eq_zero
  intro x hx
  obtain ⟨st, _, rfl⟩ := List.mem_map.mp hx
  exact overlap_window_degenerate _ _ _ _ h

theorem oeeTotal_degenerate (db : DB) (rid : ℕ) {s e : ℚ} (h : e ≤ s) :
    oeeTotal db rid s e = 0 := by
  apply List.sum_eq_zero
  intro x hx
  obtain ⟨c, _, rfl⟩ := List.mem_map.mp hx
  rw [bucketFrac_window_degenerate c h, mul_zero]
  exact pyRound_zero

theorem oeeIdealUnits_degenerate (db : DB) (rid : ℕ) {s e : ℚ} (h : e ≤ s) :
    oeeIdealUnits db rid s e = 0 := by
  apply List.sum_eq_zero
  intro x hx
  obtain ⟨c, _, rfl⟩ := List.mem_map.mp hx
  rw [overlap_window_degenerate _ _ _ _ h, mul_zero]

/-- Claim C5: on a degenerate window (`end ≤ start`) `compute_oee`
returns `planned_min = 0` and availability, performance, quality and OEE
all `0`, whatever machine-state intervals and production-count buckets the
database holds; the embedded calculator is a total function, mirroring
the absence of any failure path in the source. -/
theorem oee_degenerate_window_zeros (db : DB) (rid : ℕ) (s e : ℚ) (h : e ≤ s) :
    (compute_oee db rid s e).planned_min = 0
    ∧ (compute_oee db rid s e).availability = 0
    ∧ (compute_oee db rid s e).performance = 0
    ∧ (compute_oee db rid s e).quality = 0
    ∧ (compute_oee db rid s e).oee = 0 := by
  have hp : _minutes s e = 0 := by
    unfold _minutes
    rw [max_eq_left (by linarith)]
  have ha : (compute_oee db rid s e).availability = 0 := by
    rw [compute_oee_availability, hp]
    simp
  refine ⟨?_, ha, ?_, ?_, ?_⟩
  · rw [compute_oee_planned_min, hp]
  · rw [compute_oee_performance, oeeIdealUnits_degenerate db rid h]
    simp
  · rw [compute_oee_quality, oeeTotal_degenerate db rid h]
    simp
  · rw [compute_oee_oee, ha, zero_mul, zero_mul]

theorem oee_degenerate_window_zeros_witness :
    (compute_oee ⟨[], [⟨1, 0, 10, MState.RUN, none⟩],
        [⟨1, 0, 10, 100, 5, 105, 2⟩], [], [], []⟩ 1 5 3).planned_min = 0
    ∧ (compute_oee ⟨[], [⟨1, 0, 10, MState.RUN, none⟩],
        [⟨1, 0, 10, 100, 5, 105, 2⟩], [], [], []⟩ 1 5 3).availability = 0
    ∧ (compute_oee ⟨[], [⟨1, 0, 10, MState.RUN, none⟩],
        [⟨1, 0, 10, 100, 5, 105, 2⟩], [], [], []⟩ 1 5 3).performance = 0
    ∧ (compute_oee ⟨[], [⟨1, 0, 10, MState.RUN, none⟩],
        [⟨1, 0, 10, 100, 5, 105, 2⟩], [], [], []⟩ 1 5 3).quality = 0
    ∧ (compute_oee ⟨[], [⟨1, 0, 10, MState.RUN, none⟩],
        [⟨1, 0, 10, 100, 5, 105, 2⟩], [], [], []⟩ 1 5 3).oee = 0 :=
  oee_degenerate_window_zeros _ 1 5 3 (by norm_num)

/-- Key availability bound: the summed window overlaps of a pairwise
non-overlapping family of intervals never exceed the window length.
Stated over an arbitrary carrier with interval bounds read off by
`st`/`en`, by strong induction on the length of the list. -/
theorem sum_overlap_le_window_aux :
    ∀ (n : ℕ) (lo hi : ℚ) (l : List MachineState), l.length ≤ n →
      l.Pairwise (fun x y => min x.ts_end y.ts_end ≤ max x.ts_start y.ts_start) →
      ((l.map (fun x => _overlap x.ts_start x.ts_end lo hi)).sum ≤ _minutes lo hi) := by
  intro n
  induction n with
  | zero =>
    intro lo hi l hl _
    rw [List.eq_nil_of_length_eq_zero (Nat.le_zero.mp hl)]
    simpa using minutes_nonneg lo hi
  | succ n ih =>
    intro lo hi l hl hp
    cases l with
    | nil => simpa using minutes_nonneg lo hi
    | cons x t =>
      obtain ⟨hx, ht⟩ := List.pairwise_cons.mp hp
      have htlen : t.length ≤ n := Nat.le_of_succ_le_succ hl
      rw [List.map_cons, List.sum_cons]
      by_cases hpos : max x.ts_start lo < min x.ts_end hi
      · -- the head interval clips to a nonempty piece of the window
        have hhead : _overlap x.ts_start x.ts_end lo hi = min x.ts_end hi - max x.ts_start lo := by
          simp only [_overlap]
          rw [if_pos hpos]
          unfold _minutes
          rw [max_eq_right (by linarith)]
        have hsx : x.ts_start < x.ts_end :=
          lt_of_le_of_lt (le_max_left _ _) (lt_of_lt_of_le hpos (min_le_left _ _))
        have hsxhi : x.ts_start < hi :=
          lt_of_le_of_lt (le_max_left _ _) (lt_of_lt_of_le hpos (min_le_right _ _))
        have hloen : lo < x.ts_end :=
          lt_of_le_of_lt (le_max_right _ _) (lt_of_lt_of_le hpos (min_le_left _ _))
        -- split the tail into intervals left of the head and right of it
        have hperm : ((t.filter (fun y => decide (y.ts_end ≤ x.ts_start)))
            ++ t.filter (fun y => ! decide (y.ts_end ≤ x.ts_start))).Perm t :=
          List.filter_append_perm _ t
        have hsum : ((t.map (fun y => _overlap y.ts_start y.ts_end lo hi)).sum
            = ((t.filter (fun y => decide (y.ts_end ≤ x.ts_start))).map
                (fun y => _overlap y.ts_start y.ts_end lo hi)).sum
              + ((t.filter (fun y => ! decide (y.ts_end ≤ x.ts_start))).map
                (fun y => _overlap y.ts_start y.ts_end lo hi)).sum) := by
          rw [← List.Perm.sum_eq ((hperm.map _))]
          rw [List.map_append, List.sum_append]
        -- on the left part the window can be truncated at `x.ts_start`
        have hLcongr : ∀ y ∈ t.filter (fun y => decide (y.ts_end ≤ x.ts_start)),
            _overlap y.ts_start y.ts_end lo hi = _overlap y.ts_start y.ts_end lo x.ts_start := by
          intro y hy
          have hyx : y.ts_end ≤ x.ts_start := by
            have := (List.mem_filter.mp hy).2
            simpa using this
          have h1 : min y.ts_end hi = y.ts_end := min_eq_left (le_of_lt (lt_of_le_of_lt hyx hsxhi))
          have h2 : min y.ts_end x.ts_start = y.ts_end := min_eq_left hyx
          simp only [_overlap, h1, h2]
        -- on the right part the window can be truncated at `x.ts_end`
        have hRcongr : ∀ y ∈ t.filter (fun y => ! decide (y.ts_end ≤ x.ts_start)),
            _overlap y.ts_start y.ts_end lo hi = _overlap y.ts_start y.ts_end x.ts_end hi := by
          intro y hy
          have hymem : y ∈ t := (List.mem_filter.mp hy).1
          have hyx : x.ts_start < y.ts_end := by
            have := (List.mem_filter.mp hy).2
            simpa using this
          have hdisj : min x.ts_end y.ts_end ≤ max x.ts_start y.ts_start := hx y hymem
          have hxy : x.ts_start < y.ts_start := by
            by_contra hcon
            push_neg at hcon
            rw [max_eq_left hcon] at hdisj
            rcases min_le_iff.mp hdisj with h | h
            · exact absurd h (not_le.mpr hsx)
            · exact absurd h (not_le.mpr hyx)
          rw [max_eq_right (le_of_lt hxy)] at hdisj
          rcases min_le_iff.mp hdisj with hcase | hcase
          · -- the interval of `y` lies right of the head interval
            have h1 : max y.ts_start lo = y.ts_start :=
              max_eq_left (le_of_lt (lt_of_lt_of_le hloen hcase))
            have h2 : max y.ts_start x.ts_end = y.ts_start := max_eq_left hcase
            simp only [_overlap, h1, h2]
          · -- degenerate interval of `y`: both overlaps are zero
            rw [overlap_eq_zero_of_le _ _ _ _
                (le_trans (min_le_left _ _) (le_trans hcase (le_max_left _ _))),
              overlap_eq_zero_of_le _ _ _ _
                (le_trans (min_le_left _ _) (le_trans hcase (le_max_left _ _)))]
        rw [hhead, hsum,
          List.map_congr_left hLcongr, List.map_congr_left hRcongr]
        have hL := ih lo x.ts_start
          (t.filter (fun y => decide (y.ts_end ≤ x.ts_start)))
          (le_trans (List.length_filter_le _ t) htlen)
          (ht.sublist (List.filter_sublist t))
        have hR := ih x.ts_end hi
          (t.filter (fun y => ! decide (y.ts_end ≤ x.ts_start)))
          (le_trans (List.length_filter_le _ t) htlen)
          (ht.sublist (List.filter_sublist t))
        -- arithmetic: the three pieces tile the window
        have harith : min x.ts_end hi - max x.ts_start lo + _minutes lo x.ts_start
            + _minutes x.ts_end hi ≤ _minutes lo hi := by
          unfold _minutes
          have e1 : max 0 (x.ts_start - lo) ≤ max x.ts_start lo - lo := by
            rcases le_total x.ts_start lo with h | h
            · rw [max_eq_right h, max_eq_left (by linarith)]
              linarith
            · rw [max_eq_left h, max_eq_right (by linarith)]
          have e2 : max 0 (hi - x.ts_end) ≤ hi - min x.ts_end hi := by
            rcases le_total x.ts_end hi with h | h
            · rw [min_eq_left h, max_eq_right (by linarith)]
            · rw [min_eq_right h, max_eq_left (by linarith)]
              linarith
          have e3 : lo ≤ max x.ts_start lo := le_max_right _ _
          have e4 : min x.ts_end hi ≤ hi := min_le_right _ _
          have e5 : max 0 (hi - lo) = hi - lo := max_eq_right (by linarith)
          linarith
        linarith
      · -- the head interval contributes nothing
        rw [overlap_eq_zero_of_le _ _ _ _ (not_lt.mp hpos), zero_add]
        exact ih lo hi t htlen ht

/-- The summed window overlaps of pairwise non-overlapping intervals are
bounded by the window length. -/
theorem sum_overlap_le_window (lo hi : ℚ) (l : List MachineState)
    (h : l.Pairwise (fun x y => min x.ts_end y.ts_end ≤ max x.ts_start y.ts_start)) :
    (l.map (fun x => _overlap x.ts_start x.ts_end lo hi)).sum ≤ _minutes lo hi :=
  sum_overlap_le_window_aux l.length lo hi l (le_refl _) h

/-- The machine-state query result only refines the per-resource row set. -/
theorem oeeStates_sublist (db : DB) (rid : ℕ) (s e : ℚ) :
    (oeeStates db rid s e).Sublist
      (db.machine_states.filter (fun st => st.resource_id == rid)) := by
  apply List.monotone_filter_right
  intro a h
  simp only [Bool.and_eq_true] at h
  exact h.1.1

theorem oeeRunMin_nonneg (db : DB) (rid : ℕ) (s e : ℚ) :
    0 ≤ oeeRunMin db rid s e := by
  apply List.sum_nonneg
  intro x hx
  obtain ⟨st, _, rfl⟩ := List.mem_map.mp hx
  exact overlap_nonneg _ _ _ _

/-- With pairwise non-overlapping logs for the resource, accumulated RUN
minutes cannot exceed the window length. -/
theorem oeeRunMin_le_planned (db : DB) (rid : ℕ) (s e : ℚ)
    (hdisj : (db.machine_states.filter (fun st => st.resource_id == rid)).Pairwise
      (fun x y => min x.ts_end y.ts_end ≤ max x.ts_start y.ts_start)) :
    oeeRunMin db rid s e ≤ _minutes s e := by
  unfold oeeRunMin
  exact sum_overlap_le_window s e
    ((oeeStates db rid s e).filter (fun st => st.state == MState.RUN))
    (List.Pairwise.sublist
      ((List.filter_sublist _).trans (oeeStates_sublist db rid s e)) hdisj)

theorem bucketFrac_nonneg (c : ProductionCount) (s e : ℚ) :
    0 ≤ bucketFrac c s e := by
  simp only [bucketFrac]
  split
  · exact div_nonneg (overlap_nonneg _ _ _ _) (minutes_nonneg _ _)
  · exact le_refl 0

theorem oeeGood_nonneg (db : DB) (rid : ℕ) (s e : ℚ)
    (hc : ∀ c ∈ db.production_counts, 0 ≤ c.good) :
    0 ≤ oeeGood db rid s e := by
  apply List.sum_nonneg
  intro x hx
  obtain ⟨c, hcmem, rfl⟩ := List.mem_map.mp hx
  have h0 : (0 : ℤ) ≤ c.good := hc c (List.mem_filter.mp hcmem).1
  exact pyRound_nonneg
    (mul_nonneg (by exact_mod_cast h0) (bucketFrac_nonneg c s e))

theorem oeeTotal_nonneg (db : DB) (rid : ℕ) (s e : ℚ)
    (hc : ∀ c ∈ db.production_counts, 0 ≤ c.total) :
    0 ≤ oeeTotal db rid s e := by
  apply List.sum_nonneg
  intro x hx
  obtain ⟨c, hcmem, rfl⟩ := List.mem_map.mp hx
  have h0 : (0 : ℤ) ≤ c.total := hc c (List.mem_filter.mp hcmem).1
  exact pyRound_nonneg
    (mul_nonneg (by exact_mod_cast h0) (bucketFrac_nonneg c s e))

theorem oeeGood_le_oeeTotal (db : DB) (rid : ℕ) (s e : ℚ)
    (hc : ∀ c ∈ db.production_counts, c.good ≤ c.total) :
    oeeGood db rid s e ≤ oeeTotal db rid s e := by
  apply List.sum_le_sum
  intro c hcmem
  apply pyRound_mono
  have hgt : c.good ≤ c.total := hc c (List.mem_filter.mp hcmem).1
  exact mul_le_mul_of_nonneg_right (by exact_mod_cast hgt) (bucketFrac_nonneg c s e)

/-- Claim C3: whenever the machine-state intervals logged for the
resource are pairwise non-overlapping, every production-count bucket has
`0 ≤ good ≤ total`, and ideal rates are nonnegative, `compute_oee` yields
`availability ∈ [0,1]`, `quality ∈ [0,1]` and `performance ≥ 0`
(performance may exceed 1). -/
theorem oee_rates_bounded (db : DB) (rid : ℕ) (s e : ℚ)
    (hdisj : (db.machine_states.filter (fun st => st.resource_id == rid)).Pairwise
      (fun x y => min x.ts_end y.ts_end ≤ max x.ts_start y.ts_start))
    (hcounts : ∀ c ∈ db.production_counts,
      0 ≤ c.good ∧ c.good ≤ c.total ∧ 0 ≤ c.ideal_rate_per_min) :
    (0 ≤ (compute_oee db rid s e).availability
      ∧ (compute_oee db rid s e).availability ≤ 1)
    ∧ (0 ≤ (compute_oee db rid s e).quality
      ∧ (compute_oee db rid s e).quality ≤ 1)
    ∧ 0 ≤ (compute_oee db rid s e).performance := by
  have hg0 : ∀ c ∈ db.production_counts, 0 ≤ c.good := fun c h => (hcounts c h).1
  have hgt : ∀ c ∈ db.production_counts, c.good ≤ c.total := fun c h => (hcounts c h).2.1
  have ht0 : ∀ c ∈ db.production_counts, 0 ≤ c.total :=
    fun c h => le_trans (hg0 c h) (hgt c h)
  refine ⟨?_, ?_, ?_⟩
  · rw [compute_oee_availability]
    split_ifs with hpos
    · constructor
      · exact div_nonneg (oeeRunMin_nonneg db rid s e) (le_of_lt hpos)
      · exact (div_le_one hpos).mpr (oeeRunMin_le_planned db rid s e hdisj)
    · norm_num
  · rw [compute_oee_quality]
    split_ifs with hpos
    · constructor
      · exact div_nonneg
          (by exact_mod_cast oeeGood_nonneg db rid s e hg0)
          (by exact_mod_cast le_of_lt hpos)
      · refine (div_le_one (by exact_mod_cast hpos)).mpr ?_
        exact_mod_cast oeeGood_le_oeeTotal db rid s e hgt
    · norm_num
  · rw [compute_oee_performance]
    split_ifs with hpos
    · exact div_nonneg
        (by exact_mod_cast oeeTotal_nonneg db rid s e ht0) (le_of_lt hpos)
    · exact le_refl 0

theorem oee_rates_bounded_witness :
    (0 ≤ (compute_oee ⟨[], [⟨1, 0, 30, MState.RUN, none⟩],
          [⟨1, 0, 30, 40, 2, 42, 2⟩], [], [], []⟩ 1 0 60).availability
      ∧ (compute_oee ⟨[], [⟨1, 0, 30, MState.RUN, none⟩],
          [⟨1, 0, 30, 40, 2, 42, 2⟩], [], [], []⟩ 1 0 60).availability ≤ 1)
    ∧ (0 ≤ (compute_oee ⟨[], [⟨1, 0, 30, MState.RUN, none⟩],
          [⟨1, 0, 30, 40, 2, 42, 2⟩], [], [], []⟩ 1 0 60).quality
      ∧ (compute_oee ⟨[], [⟨1, 0, 30, MState.RUN, none⟩],
          [⟨1, 0, 30, 40, 2, 42, 2⟩], [], [], []⟩ 1 0 60).quality ≤ 1)
    ∧ 0 ≤ (compute_oee ⟨[], [⟨1, 0, 30, MState.RUN, none⟩],
          [⟨1, 0, 30, 40, 2, 42, 2⟩], [], [], []⟩ 1 0 60).performance :=
  oee_rates_bounded _ 1 0 60
    (by simp)
    (by intro c hc; simp at hc; subst hc; norm_num)

theorem duration_nonneg {o : SalesOrder} {s : RoutingStep}
    (h1 : 0 ≤ s.setup_min) (h2 : 0 ≤ s.run_min_per_unit) (hq : 0 ≤ o.quantity) :
    0 ≤ s.setup_min + (o.quantity : ℚ) * s.run_min_per_unit :=
  add_nonneg h1 (mul_nonneg (by exact_mod_cast hq) h2)

/-- Every operation emitted for one order carries that order's id. -/
theorem schedSteps_ops_order_id (o : SalesOrder) (rid : ℕ) :
    ∀ (steps : List RoutingStep) (cursor : ℚ) (nf : ℕ → ℚ),
      ∀ op ∈ (schedSteps o rid steps cursor nf).1, op.order_id = o.id := by
  intro steps
  induction steps with
  | nil => intro cursor nf op hop; simp [schedSteps] at hop
  | cons s rest ih =>
    intro cursor nf op hop
    simp only [schedSteps, List.mem_cons] at hop
    rcases hop with rfl | hop
    · rfl
    · exact ih _ _ op hop

/-- The emitted operations list the step sequence numbers in order. -/
theorem schedSteps_ops_seq (o : SalesOrder) (rid : ℕ) :
    ∀ (steps : List RoutingStep) (cursor : ℚ) (nf : ℕ → ℚ),
      (schedSteps o rid steps cursor nf).1.map (fun op => op.step_seq)
        = steps.map (fun s => s.seq) := by
  intro steps
  induction steps with
  | nil => intro cursor nf; simp [schedSteps]
  | cons s rest ih =>
    intro cursor nf
    simp only [schedSteps, List.map_cons]
    rw [ih]

/-- Each emitted operation starts no earlier than the cursor in effect
when its step was placed; in particular the first one starts no earlier
than the initial cursor. -/
theorem schedSteps_first_start (o : SalesOrder) (rid : ℕ)
    (steps : List RoutingStep) (cursor : ℚ) (nf : ℕ → ℚ) :
    ∀ op ∈ (schedSteps o rid steps cursor nf).1.head?, cursor ≤ op.start_ts := by
  cases steps with
  | nil => simp [schedSteps]
  | cons s rest =>
    intro op hop
    simp only [schedSteps, List.head?_cons, Option.mem_def, Option.some.injEq] at hop
    subst hop
    exact le_max_left _ _

/-- Steps of one order are strictly sequential: consecutive emitted
operations never start before the previous one ends (no duration-sign
assumptions are needed for this). -/
theorem schedSteps_ops_chain (o : SalesOrder) (rid : ℕ) :
    ∀ (steps : List RoutingStep) (cursor : ℚ) (nf : ℕ → ℚ),
      (schedSteps o rid steps cursor nf).1.Chain'
        (fun a b => a.end_ts ≤ b.start_ts) := by
  intro steps
  induction steps with
  | nil => intro cursor nf; simp [schedSteps]
  | cons s rest ih =>
    intro cursor nf
    simp only [schedSteps]
    rw [List.chain'_cons']
    constructor
    · intro b hb
      exact schedSteps_first_start o rid rest _ _ b hb
    · exact ih _ _

/-- With nonnegative durations the per-resource availability map only
moves forward. -/
theorem schedSteps_nf_mono (o : SalesOrder) (rid : ℕ) (hq : 0 ≤ o.quantity) :
    ∀ (steps : List RoutingStep),
      (∀ s ∈ steps, 0 ≤ s.setup_min ∧ 0 ≤ s.run_min_per_unit) →
      ∀ (cursor : ℚ) (nf : ℕ → ℚ) (ρ : ℕ),
        nf ρ ≤ (schedSteps o rid steps cursor nf).2 ρ := by
  intro steps
  induction steps with
  | nil => intro _ cursor nf ρ; simp [schedSteps]
  | cons s rest ih =>
    intro hs cursor nf ρ
    simp only [schedSteps]
    refine le_trans ?_ (ih (fun s' h' => hs s' (List.mem_cons_of_mem _ h')) _ _ ρ)
    by_cases hρ : ρ = s.resource_id
    · subst hρ
      rw [Function.update_same]
      have hd := duration_nonneg (hs s (List.mem_cons_self _ _)).1
        (hs s (List.mem_cons_self _ _)).2 hq
      have hm : nf s.resource_id ≤ max cursor (nf s.resource_id) := le_max_right _ _
      linarith
    · rw [Function.update_noteq hρ]

/-- With nonnegative durations every emitted operation ends by the time
the final availability map frees its resource. -/
theorem schedSteps_ops_end_le_nf (o : SalesOrder) (rid : ℕ) (hq : 0 ≤ o.quantity) :
    ∀ (steps : List RoutingStep),
      (∀ s ∈ steps, 0 ≤ s.setup_min ∧ 0 ≤ s.run_min_per_unit) →
      ∀ (cursor : ℚ) (nf : ℕ → ℚ),
        ∀ op ∈ (schedSteps o rid steps cursor nf).1,
          op.end_ts ≤ (schedSteps o rid steps cursor nf).2 op.resource_id := by
  intro steps
  induction steps with
  | nil => intro _ cursor nf op hop; simp [schedSteps] at hop
  | cons s rest ih =>
    intro hs cursor nf op hop
    simp only [schedSteps, List.mem_cons] at hop ⊢
    have hrest : ∀ s' ∈ rest, 0 ≤ s'.setup_min ∧ 0 ≤ s'.run_min_per_unit :=
      fun s' h' => hs s' (List.mem_cons_of_mem _ h')
    rcases hop with rfl | hop
    · refine le_trans ?_ (schedSteps_nf_mono o rid hq rest hrest _ _ _)
      rw [Function.update_same]
    · exact ih hrest _ _ op hop

/-- With nonnegative durations every emitted operation starts no earlier
than the initial availability of its resource, and ends no earlier than
it starts. -/
theorem schedSteps_ops_start_bounds (o : SalesOrder) (rid : ℕ) (hq : 0 ≤ o.quantity) :
    ∀ (steps : List RoutingStep),
      (∀ s ∈ steps, 0 ≤ s.setup_min ∧ 0 ≤ s.run_min_per_unit) →
      ∀ (cursor : ℚ) (nf : ℕ → ℚ),
        ∀ op ∈ (schedSteps o rid steps cursor nf).1,
          nf op.resource_id ≤ op.start_ts ∧ op.start_ts ≤ op.end_ts := by
  intro steps
  induction steps with
  | nil => intro _ cursor nf op hop; simp [schedSteps] at hop
  | cons s rest ih =>
    intro hs cursor nf op hop
    simp only [schedSteps, List.mem_cons] at hop
    have hrest : ∀ s' ∈ rest, 0 ≤ s'.setup_min ∧ 0 ≤ s'.run_min_per_unit :=
      fun s' h' => hs s' (List.mem_cons_of_mem _ h')
    have hd := duration_nonneg (hs s (List.mem_cons_self _ _)).1
      (hs s (List.mem_cons_self _ _)).2 hq
    rcases hop with rfl | hop
    · constructor
      · exact le_max_right _ _
      · simp only
        linarith
    · have hih := ih hrest _ _ op hop
      constructor
      · refine le_trans ?_ hih.1
        by_cases hρ : op.resource_id = s.resource_id
        · rw [hρ, Function.update_same]
          have hm : nf s.resource_id ≤ max cursor (nf s.resource_id) := le_max_right _ _
          linarith
        · rw [Function.update_noteq hρ]
      · exact hih.2

instance : IsTotal RoutingStep seqLE :=
  ⟨fun a b => le_total a.seq b.seq⟩

instance : IsTrans RoutingStep seqLE :=
  ⟨fun _ _ _ hab hbc => le_trans hab hbc⟩

instance : IsTotal LatenessRec tardyGE :=
  ⟨fun a b => le_total b.tardy_min a.tardy_min⟩

instance : IsTrans LatenessRec tardyGE :=
  ⟨fun _ _ _ hab hbc => le_trans hbc hab⟩

theorem mem_stepsFor {db : DB} {rid : ℕ} {s : RoutingStep}
    (h : s ∈ stepsFor db rid) : s ∈ db.routing_steps := by
  have := (List.perm_insertionSort seqLE _).mem_iff.mp h
  exact (List.mem_filter.mp this).1

theorem stepsFor_sorted (db : DB) (rid : ℕ) :
    (stepsFor db rid).Pairwise seqLE :=
  List.sorted_insertionSort seqLE _

/-- With nonnegative durations every emitted operation of one order
starts no earlier than the initial cursor. -/
theorem schedSteps_ops_cursor_le (o : SalesOrder) (rid : ℕ) (hq : 0 ≤ o.quantity) :
    ∀ (steps : List RoutingStep),
      (∀ s ∈ steps, 0 ≤ s.setup_min ∧ 0 ≤ s.run_min_per_unit) →
      ∀ (cursor : ℚ) (nf : ℕ → ℚ),
        ∀ op ∈ (schedSteps o rid steps cursor nf).1, cursor ≤ op.start_ts := by
  intro steps
  induction steps with
  | nil => intro _ cursor nf op hop; simp [schedSteps] at hop
  | cons s rest ih =>
    intro hs cursor nf op hop
    simp only [schedSteps, List.mem_cons] at hop
    have hd := duration_nonneg (hs s (List.mem_cons_self _ _)).1
      (hs s (List.mem_cons_self _ _)).2 hq
    rcases hop with rfl | hop
    · exact le_max_left _ _
    · have := ih (fun s' h' => hs s' (List.mem_cons_of_mem _ h')) _ _ op hop
      have hcur : cursor ≤ max cursor (nf s.resource_id) := le_max_left _ _
      linarith

/-- With nonnegative durations the operations of one order are totally
ordered in time: each ends before any later one starts. -/
theorem schedSteps_ops_pairwise (o : SalesOrder) (rid : ℕ) (hq : 0 ≤ o.quantity) :
    ∀ (steps : List RoutingStep),
      (∀ s ∈ steps, 0 ≤ s.setup_min ∧ 0 ≤ s.run_min_per_unit) →
      ∀ (cursor : ℚ) (nf : ℕ → ℚ),
        (schedSteps o rid steps cursor nf).1.Pairwise
          (fun a b => a.end_ts ≤ b.start_ts) := by
  intro steps
  induction steps with
  | nil => intro _ cursor nf; simp [schedSteps]
  | cons s rest ih =>
    intro hs cursor nf
    have hrest : ∀ s' ∈ rest, 0 ≤ s'.setup_min ∧ 0 ≤ s'.run_min_per_unit :=
      fun s' h' => hs s' (List.mem_cons_of_mem _ h')
    simp only [schedSteps]
    rw [List.pairwise_cons]
    constructor
    · intro op hop
      exact schedSteps_ops_cursor_le o rid hq rest hrest _ _ op hop
    · exact ih hrest _ _

/-- The availability map only moves forward across whole orders. -/
theorem schedOrders_nf_mono (db : DB) (now : ℚ)
    (hsteps : ∀ s ∈ db.routing_steps, 0 ≤ s.setup_min ∧ 0 ≤ s.run_min_per_unit) :
    ∀ (orders : List SalesOrder), (∀ o ∈ orders, 0 ≤ o.quantity) →
      ∀ (nf : ℕ → ℚ) (ρ : ℕ), nf ρ ≤ (schedOrders db now orders nf).2 ρ := by
  intro orders
  induction orders with
  | nil => intro _ nf ρ; simp [schedOrders]
  | cons o rest ih =>
    intro hq nf ρ
    have hqrest : ∀ o' ∈ rest, 0 ≤ o'.quantity :=
      fun o' h' => hq o' (List.mem_cons_of_mem _ h')
    cases hro : routingFor db o.family_id with
    | none => simp only [schedOrders, hro]; exact ih hqrest nf ρ
    | some r =>
      simp only [schedOrders, hro]
      refine le_trans
        (schedSteps_nf_mono o r.id (hq o (List.mem_cons_self _ _)) _
          (fun s' h' => hsteps s' (mem_stepsFor h')) _ nf ρ)
        (ih hqrest _ ρ)

/-- Every operation of the whole run ends by the final availability time
of its resource. -/
theorem schedOrders_ops_end_le_nf (db : DB) (now : ℚ)
    (hsteps : ∀ s ∈ db.routing_steps, 0 ≤ s.setup_min ∧ 0 ≤ s.run_min_per_unit) :
    ∀ (orders : List SalesOrder), (∀ o ∈ orders, 0 ≤ o.quantity) →
      ∀ (nf : ℕ → ℚ), ∀ op ∈ (schedOrders db now orders nf).1,
        op.end_ts ≤ (schedOrders db now orders nf).2 op.resource_id := by
  intro orders
  induction orders with
  | nil => intro _ nf op hop; simp [schedOrders] at hop
  | cons o rest ih =>
    intro hq nf op hop
    have hqo : 0 ≤ o.quantity := hq o (List.mem_cons_self _ _)
    have hqrest : ∀ o' ∈ rest, 0 ≤ o'.quantity :=
      fun o' h' => hq o' (List.mem_cons_of_mem _ h')
    cases hro : routingFor db o.family_id with
    | none =>
      simp only [schedOrders, hro] at hop ⊢
      exact ih hqrest nf op hop
    | some r =>
      simp only [schedOrders, hro, List.mem_append] at hop ⊢
      have hstepsFor : ∀ s' ∈ stepsFor db r.id, 0 ≤ s'.setup_min ∧ 0 ≤ s'.run_min_per_unit :=
        fun s' h' => hsteps s' (mem_stepsFor h')
      rcases hop with hop | hop
      · refine le_trans
          (schedSteps_ops_end_le_nf o r.id hqo _ hstepsFor _ nf op hop) ?_
        exact schedOrders_nf_mono db now hsteps rest hqrest _ op.resource_id
      · exact ih hqrest _ op hop

/-- Every operation starts no earlier than the availability of its
resource at entry, and no operation ends before it starts. -/
theorem schedOrders_ops_start_bounds (db : DB) (now : ℚ)
    (hsteps : ∀ s ∈ db.routing_steps, 0 ≤ s.setup_min ∧ 0 ≤ s.run_min_per_unit) :
    ∀ (orders : List SalesOrder), (∀ o ∈ orders, 0 ≤ o.quantity) →
      ∀ (nf : ℕ → ℚ), ∀ op ∈ (schedOrders db now orders nf).1,
        nf op.resource_id ≤ op.start_ts ∧ op.start_ts ≤ op.end_ts := by
  intro orders
  induction orders with
  | nil => intro _ nf op hop; simp [schedOrders] at hop
  | cons o rest ih =>
    intro hq nf op hop
    have hqo : 0 ≤ o.quantity := hq o (List.mem_cons_self _ _)
    have hqrest : ∀ o' ∈ rest, 0 ≤ o'.quantity :=
      fun o' h' => hq o' (List.mem_cons_of_mem _ h')
    cases hro : routingFor db o.family_id with
    | none =>
      simp only [schedOrders, hro] at hop ⊢
      exact ih hqrest nf op hop
    | some r =>
      simp only [schedOrders, hro, List.mem_append] at hop ⊢
      have hstepsFor : ∀ s' ∈ stepsFor db r.id, 0 ≤ s'.setup_min ∧ 0 ≤ s'.run_min_per_unit :=
        fun s' h' => hsteps s' (mem_stepsFor h')
      rcases hop with hop | hop
      · exact schedSteps_ops_start_bounds o r.id hqo _ hstepsFor _ nf op hop
      · have hih := ih hqrest _ op hop
        refine ⟨le_trans ?_ hih.1, hih.2⟩
        exact schedSteps_nf_mono o r.id hqo _ hstepsFor _ nf op.resource_id

/-- Single-capacity invariant across the whole run: whenever two emitted
operations share a resource, the earlier-emitted one ends before the
later one starts. -/
theorem schedOrders_pairwise (db : DB) (now : ℚ)
    (hsteps : ∀ s ∈ db.routing_steps, 0 ≤ s.setup_min ∧ 0 ≤ s.run_min_per_unit) :
    ∀ (orders : List SalesOrder), (∀ o ∈ orders, 0 ≤ o.quantity) →
      ∀ (nf : ℕ → ℚ),
        (schedOrders db now orders nf).1.Pairwise
          (fun a b => a.resource_id = b.resource_id → a.end_ts ≤ b.start_ts) := by
  intro orders
  induction orders with
  | nil => intro _ nf; simp [schedOrders]
  | cons o rest ih =>
    intro hq nf
    have hqo : 0 ≤ o.quantity := hq o (List.mem_cons_self _ _)
    have hqrest : ∀ o' ∈ rest, 0 ≤ o'.quantity :=
      fun o' h' => hq o' (List.mem_cons_of_mem _ h')
    cases hro : routingFor db o.family_id with
    | none => simp only [schedOrders, hro]; exact ih hqrest nf
    | some r =>
      simp only [schedOrders, hro]
      have hstepsFor : ∀ s' ∈ stepsFor db r.id, 0 ≤ s'.setup_min ∧ 0 ≤ s'.run_min_per_unit :=
        fun s' h' => hsteps s' (mem_stepsFor h')
      rw [List.pairwise_append]
      refine ⟨?_, ih hqrest _, ?_⟩
      · have hp := schedSteps_ops_pairwise o r.id hqo _ hstepsFor
          (o.release_date.getD now) nf
        exact hp.imp
          (fun {a b} (h : a.end_ts ≤ b.start_ts)
            (_ : a.resource_id = b.resource_id) => h)
      · intro a ha b hb hab
        have hend := schedSteps_ops_end_le_nf o r.id hqo _ hstepsFor _ nf a ha
        have hstart := (schedOrders_ops_start_bounds db now hsteps rest hqrest _ b hb).1
        rw [hab] at hend
        exact le_trans hend hstart

/-- Emitted operations only carry ids of scheduled orders. -/
theorem schedOrders_ops_ids (db : DB) (now : ℚ) :
    ∀ (orders : List SalesOrder) (nf : ℕ → ℚ),
      ∀ op ∈ (schedOrders db now orders nf).1,
        op.order_id ∈ orders.map (fun o => o.id) := by
  intro orders
  induction orders with
  | nil => intro nf op hop; simp [schedOrders] at hop
  | cons o rest ih =>
    intro nf op hop
    cases hro : routingFor db o.family_id with
    | none =>
      simp only [schedOrders, hro] at hop
      exact List.mem_cons_of_mem _ (ih nf op hop)
    | some r =>
      simp only [schedOrders, hro, List.mem_append] at hop
      rcases hop with hop | hop
      · rw [List.map_cons]
        exact (schedSteps_ops_order_id o r.id _ _ nf op hop) ▸ List.mem_cons_self _ _
      · exact List.mem_cons_of_mem _ (ih _ op hop)

/-- Per-order view of the run (order ids assumed distinct, as primary
keys): the operations filtered to one order id are chained in time —
each ends before the next starts — and carry nondecreasing step
sequence numbers.  No duration-sign assumptions are needed. -/
theorem schedOrders_per_order (db : DB) (now : ℚ) :
    ∀ (orders : List SalesOrder), (orders.map (fun o => o.id)).Nodup →
      ∀ (nf : ℕ → ℚ) (oid : ℕ),
        ((schedOrders db now orders nf).1.filter
            (fun op => op.order_id == oid)).Chain'
          (fun a b => a.end_ts ≤ b.start_ts)
        ∧ ((schedOrders db now orders nf).1.filter
            (fun op => op.order_id == oid)).Pairwise
          (fun a b => a.step_seq ≤ b.step_seq) := by
  intro orders
  induction orders with
  | nil => intro _ nf oid; simp [schedOrders]
  | cons o rest ih =>
    intro hnd nf oid
    rw [List.map_cons, List.nodup_cons] at hnd
    cases hro : routingFor db o.family_id with
    | none =>
      simp only [schedOrders, hro]
      exact ih hnd.2 nf oid
    | some r =>
      simp only [schedOrders, hro, List.filter_append]
      by_cases hcase : oid = o.id
      · subst hcase
        have h1 : (schedSteps o r.id (stepsFor db r.id)
            (o.release_date.getD now) nf).1.filter (fun op => op.order_id == o.id)
            = (schedSteps o r.id (stepsFor db r.id) (o.release_date.getD now) nf).1 :=
          List.filter_eq_self.mpr (fun op hop => by
            simp [schedSteps_ops_order_id o r.id _ _ nf op hop])
        have h2 : ((schedOrders db now rest
            (schedSteps o r.id (stepsFor db r.id) (o.release_date.getD now) nf).2).1.filter
            (fun op => op.order_id == o.id)) = [] := by
          rw [List.filter_eq_nil_iff]
          intro op hop
          have hid := schedOrders_ops_ids db now rest _ op hop
          simp only [beq_iff_eq]
          intro heq
          rw [heq] at hid
          exact hnd.1 hid
        rw [h1, h2, List.append_nil]
        constructor
        · exact schedSteps_ops_chain o r.id _ _ nf
        · have hsorted : (stepsFor db r.id).Pairwise seqLE := stepsFor_sorted db r.id
          have hmapsorted : ((stepsFor db r.id).map (fun s => s.seq)).Pairwise
              (fun a b => a ≤ b) := List.pairwise_map.mpr hsorted
          rw [← schedSteps_ops_seq o r.id (stepsFor db r.id)
            (o.release_date.getD now) nf] at hmapsorted
          exact List.pairwise_map.mp hmapsorted
      · have h1 : (schedSteps o r.id (stepsFor db r.id)
            (o.release_date.getD now) nf).1.filter (fun op => op.order_id == oid)
            = [] := by
          rw [List.filter_eq_nil_iff]
          intro op hop
          simp only [beq_iff_eq]
          rw [schedSteps_ops_order_id o r.id _ _ nf op hop]
          exact fun heq => hcase heq.symm
        rw [h1, List.nil_append]
        exact ih hnd.2 _ oid

/-- An order whose resolved routing has no steps contributes no
operation to the run (order ids assumed distinct). -/
theorem schedOrders_no_ops_of_empty_steps (db : DB) (now : ℚ) :
    ∀ (orders : List SalesOrder), (orders.map (fun o => o.id)).Nodup →
      ∀ (nf : ℕ → ℚ) (o : SalesOrder) (r : Routing), o ∈ orders →
        routingFor db o.family_id = some r → stepsFor db r.id = [] →
        ∀ op ∈ (schedOrders db now orders nf).1, op.order_id ≠ o.id := by
  intro orders
  induction orders with
  | nil => intro _ nf o r ho; simp at ho
  | cons o' rest ih =>
    intro hnd nf o r ho hro hsteps op hop
    rw [List.map_cons, List.nodup_cons] at hnd
    rcases List.mem_cons.mp ho with rfl | ho
    · -- the order itself heads the list: its step list is empty
      simp only [schedOrders, hro, hsteps, schedSteps, List.nil_append] at hop
      have hid := schedOrders_ops_ids db now rest _ op hop
      intro heq
      rw [heq] at hid
      exact hnd.1 hid
    · cases hro' : routingFor db o'.family_id with
      | none =>
        simp only [schedOrders, hro'] at hop
        exact ih hnd.2 nf o r ho hro hsteps op hop
      | some r' =>
        simp only [schedOrders, hro', List.mem_append] at hop
        rcases hop with hop | hop
        · rw [schedSteps_ops_order_id o' r'.id _ _ nf op hop]
          intro heq
          apply hnd.1
          rw [heq]
          exact List.mem_map.mpr ⟨o, ho, rfl⟩
        · exact ih hnd.2 _ o r ho hro hsteps op hop

/-- The operation list a successful planning run returns. -/
def planOps (db : DB) (now : ℚ) : List OpRec :=
  (schedOrders db now (List.insertionSort orderLE db.orders) (fun _ => now)).1

theorem planOps_def (db : DB) (now : ℚ) :
    planOps db now
      = (schedOrders db now (List.insertionSort orderLE db.orders) (fun _ => now)).1 := rfl

/-- Inversion of a successful `plan_schedule` run: the returned plan's
fields are the internal operation list and the sorted lateness report
built from it. -/
theorem plan_schedule_ok_fields {db : DB} {now : ℚ} {p : Plan}
    (hp : plan_schedule db now = Except.ok p) :
    p.ops = planOps db now
    ∧ p.lateness = List.insertionSort tardyGE
        (((List.insertionSort orderLE db.orders).filter
            (fun o => (planOps db now).any (fun op => op.order_id == o.id))).map
          (fun o => ⟨o.id, max 0 (lastEnd (planOps db now) now o.id - o.due_date)⟩)) := by
  simp only [plan_schedule] at hp
  split at hp
  · rw [Except.ok.injEq] at hp
    subst hp
    exact ⟨rfl, rfl⟩
  · exact absurd hp (by simp)

/-- Claim C2: when some order references a family with no routing at all,
`plan_schedule` raises (`ValueError` in the source, the `error` result
here) and the whole run aborts — no plan, hence no operations and no
lateness entries for any order, is ever produced. -/
theorem plan_schedule_missing_routing_aborts (db : DB) (now : ℚ)
    (h : ∃ o ∈ db.orders, routingFor db o.family_id = none) :
    plan_schedule db now = Except.error "No routing found for family_id"
    ∧ ∀ p : Plan, plan_schedule db now ≠ Except.ok p := by
  obtain ⟨o, ho, hro⟩ := h
  have hmem : o ∈ List.insertionSort orderLE db.orders :=
    (List.perm_insertionSort orderLE db.orders).mem_iff.mpr ho
  have hall : ((List.insertionSort orderLE db.orders).all
      (fun o => (routingFor db o.family_id).isSome)) = false := by
    rw [List.all_eq_false]
    exact ⟨o, hmem, by simp [hro]⟩
  have herr : plan_schedule db now = Except.error "No routing found for family_id" := by
    simp [plan_schedule, hall]
  refine ⟨herr, fun p hp => ?_⟩
  rw [herr] at hp
  exact Except.noConfusion hp

theorem plan_schedule_missing_routing_aborts_witness :
    plan_schedule ⟨[], [], [], [], [], [⟨1, 7, 1, 0, none, 100⟩]⟩ 0
      = Except.error "No routing found for family_id" :=
  (plan_schedule_missing_routing_aborts ⟨[], [], [], [], [], [⟨1, 7, 1, 0, none, 100⟩]⟩ 0
    ⟨⟨1, 7, 1, 0, none, 100⟩, by simp, rfl⟩).1

/-- Claim C4: with nonnegative setup times, per-unit run times and order
quantities, the operations a successful run assigns to any one resource
have pairwise non-overlapping `[start, end)` ranges. -/
theorem plan_schedule_resource_exclusive (db : DB) (now : ℚ)
    (hsteps : ∀ s ∈ db.routing_steps, 0 ≤ s.setup_min ∧ 0 ≤ s.run_min_per_unit)
    (hq : ∀ o ∈ db.orders, 0 ≤ o.quantity) :
    ∀ p, plan_schedule db now = Except.ok p → ∀ rid,
      (p.ops.filter (fun op => op.resource_id == rid)).Pairwise
        (fun a b => a.end_ts ≤ b.start_ts ∨ b.end_ts ≤ a.start_ts) := by
  intro p hp rid
  rw [(plan_schedule_ok_fields hp).1, planOps_def]
  have hq' : ∀ o ∈ List.insertionSort orderLE db.orders, 0 ≤ o.quantity :=
    fun o ho => hq o ((List.perm_insertionSort orderLE db.orders).mem_iff.mp ho)
  have hpw := schedOrders_pairwise db now hsteps _ hq' (fun _ => now)
  have hfilt := hpw.filter (fun op => op.resource_id == rid)
  refine List.Pairwise.imp_of_mem ?_ hfilt
  intro a b ha hb hab
  have hra : a.resource_id = rid := by simpa using (List.mem_filter.mp ha).2
  have hrb : b.resource_id = rid := by simpa using (List.mem_filter.mp hb).2
  exact Or.inl (hab (hra.trans hrb.symm))

/-- The one-order, one-step scheduling database used by the witnesses. -/
def dbSched : DB :=
  ⟨[⟨1, "M1", "machine", true⟩], [], [], [⟨1, 5⟩], [⟨1, 1, 1, 2, 3⟩],
    [⟨1, 5, 2, 0, none, 100⟩]⟩

/-- The plan `plan_schedule` produces on `dbSched` at `now = 0`: one
operation `[0, 8)` (duration `2 + 2*3`) and an on-time lateness entry. -/
def planSched : Plan := ⟨0, [⟨1, 1, 1, 1, 0, 8, 2, 3, 2, 100, 0⟩], [⟨1, 0⟩]⟩

theorem plan_schedule_dbSched_eval :
    plan_schedule dbSched 0 = Except.ok planSched := by
  norm_num [plan_schedule, planSched, dbSched, List.insertionSort, List.orderedInsert,
    routingFor, List.find?, stepsFor, List.filter_cons, schedOrders, schedSteps,
    seqLE, orderLE, tardyGE, lastEnd, Function.update, Option.getD, max_def]

theorem plan_schedule_resource_exclusive_witness :
    (planSched.ops.filter (fun op => op.resource_id == 1)).Pairwise
      (fun a b => a.end_ts ≤ b.start_ts ∨ b.end_ts ≤ a.start_ts) :=
  plan_schedule_resource_exclusive dbSched 0
    (by intro s hs; simp [dbSched] at hs; subst hs; norm_num)
    (by intro o ho; simp [dbSched] at ho; subst ho; norm_num)
    planSched plan_schedule_dbSched_eval 1

/-- Claim C8: in every successful run, the operations of one order
(filtered by its id; order ids are primary keys, hence assumed distinct)
form a chain in time — each consecutive pair of steps, taken in
ascending `seq`, satisfies `next.start ≥ previous.end`, even across
different resources — and their step sequence numbers are ascending. -/
theorem plan_schedule_order_steps_sequential (db : DB) (now : ℚ)
    (hnd : (db.orders.map (fun o => o.id)).Nodup) :
    ∀ p, plan_schedule db now = Except.ok p → ∀ oid,
      (p.ops.filter (fun op => op.order_id == oid)).Chain'
        (fun a b => a.end_ts ≤ b.start_ts)
      ∧ (p.ops.filter (fun op => op.order_id == oid)).Pairwise
        (fun a b => a.step_seq ≤ b.step_seq) := by
  intro p hp oid
  rw [(plan_schedule_ok_fields hp).1, planOps_def]
  have hnd' : ((List.insertionSort orderLE db.orders).map (fun o => o.id)).Nodup :=
    (List.Perm.nodup_iff ((List.perm_insertionSort orderLE db.orders).map _)).mpr hnd
  exact schedOrders_per_order db now _ hnd' (fun _ => now) oid

theorem plan_schedule_order_steps_sequential_witness :
    (planSched.ops.filter (fun op => op.order_id == 1)).Chain'
      (fun a b => a.end_ts ≤ b.start_ts)
    ∧ (planSched.ops.filter (fun op => op.order_id == 1)).Pairwise
      (fun a b => a.step_seq ≤ b.step_seq) :=
  plan_schedule_order_steps_sequential dbSched 0 (by simp [dbSched])
    planSched plan_schedule_dbSched_eval 1

/-- Claim C10: in every successful run the lateness report holds exactly
one entry per order that produced at least one operation (order ids are
primary keys, hence assumed distinct); an order whose resolved routing
has no steps yields no operation and is silently absent from the report;
and the report is sorted by `tardy_min` descending. -/
theorem plan_schedule_lateness_report (db : DB) (now : ℚ)
    (hnd : (db.orders.map (fun o => o.id)).Nodup) :
    ∀ p, plan_schedule db now = Except.ok p →
      ((p.lateness.map (fun l => l.order_id)).Perm
        ((db.orders.filter (fun o => p.ops.any (fun op => op.order_id == o.id))).map
          (fun o => o.id)))
      ∧ List.Sorted tardyGE p.lateness
      ∧ (∀ o ∈ db.orders, ∀ r, routingFor db o.family_id = some r →
          stepsFor db r.id = [] → ∀ l ∈ p.lateness, l.order_id ≠ o.id) := by
  intro p hp
  obtain ⟨hops, hlat⟩ := plan_schedule_ok_fields hp
  have hnd' : ((List.insertionSort orderLE db.orders).map (fun o => o.id)).Nodup :=
    (List.Perm.nodup_iff ((List.perm_insertionSort orderLE db.orders).map _)).mpr hnd
  refine ⟨?_, ?_, ?_⟩
  · rw [hlat, hops]
    refine ((List.perm_insertionSort tardyGE _).map _).trans ?_
    rw [List.map_map]
    have hmap : ((List.insertionSort orderLE db.orders).filter
          (fun o => (planOps db now).any (fun op => op.order_id == o.id))).map
        ((fun l : LatenessRec => l.order_id)
          ∘ (fun o : SalesOrder =>
              (⟨o.id, max 0 (lastEnd (planOps db now) now o.id - o.due_date)⟩ : LatenessRec)))
        = ((List.insertionSort orderLE db.orders).filter
          (fun o => (planOps db now).any (fun op => op.order_id == o.id))).map
          (fun o => o.id) := List.map_congr_left (fun o _ => rfl)
    rw [hmap]
    exact ((List.perm_insertionSort orderLE db.orders).filter _).map _
  · rw [hlat]
    exact List.sorted_insertionSort tardyGE _
  · intro o ho r hro hsteps l hl heq
    rw [hlat] at hl
    have hl0 := (List.perm_insertionSort tardyGE _).mem_iff.mp hl
    obtain ⟨o', ho', hmk⟩ := List.mem_map.mp hl0
    have hpred := (List.mem_filter.mp ho').2
    obtain ⟨op, hopmem, hopid⟩ := List.any_eq_true.mp hpred
    have hid' : l.order_id = o'.id := by rw [← hmk]
    have hopeq : op.order_id = o.id := by
      have : op.order_id = o'.id := by simpa using hopid
      rw [this, ← hid', heq]
    have hmemo : o ∈ List.insertionSort orderLE db.orders :=
      (List.perm_insertionSort orderLE db.orders).mem_iff.mpr ho
    exact schedOrders_no_ops_of_empty_steps db now _ hnd' (fun _ => now) o r
      hmemo hro hsteps op hopmem hopeq

theorem plan_schedule_lateness_report_witness :
    ((planSched.lateness.map (fun l => l.order_id)).Perm
      ((dbSched.orders.filter
          (fun o => planSched.ops.any (fun op => op.order_id == o.id))).map
        (fun o => o.id)))
    ∧ List.Sorted tardyGE planSched.lateness
    ∧ (∀ o ∈ dbSched.orders, ∀ r, routingFor dbSched o.family_id = some r →
        stepsFor dbSched r.id = [] → ∀ l ∈ planSched.lateness, l.order_id ≠ o.id) :=
  plan_schedule_lateness_report dbSched 0 (by simp [dbSched])
    planSched plan_schedule_dbSched_eval

/-- The concrete OEE scenario database: a 60-minute window will be
`[0, 60]`; one RUN interval `[5, 55]` lies fully inside it, and one
production bucket spans the same 50 minutes with `good=100, scrap=5,
total=105` at `ideal_rate_per_min=2`. -/
def dbScenario : DB :=
  ⟨[], [⟨1, 5, 55, MState.RUN, none⟩], [⟨1, 5, 55, 100, 5, 105, 2⟩], [], [], []⟩

/-- Claim C9: on the concrete scenario window `[0, 60]` the calculator
returns `planned_min = 60`, `run_min = 50`, `availability = 50/60`,
counts `good = 100`, `scrap = 5`, `total = 105`,
`performance = 105/100` (ideal units `2 * 50 = 100`),
`quality = 100/105`, and `oee = availability * performance * quality`. -/
theorem oee_concrete_scenario :
    (compute_oee dbScenario 1 0 60).planned_min = 60
    ∧ (compute_oee dbScenario 1 0 60).run_min = 50
    ∧ (compute_oee dbScenario 1 0 60).availability = 50 / 60
    ∧ (compute_oee dbScenario 1 0 60).good = 100
    ∧ (compute_oee dbScenario 1 0 60).scrap = 5
    ∧ (compute_oee dbScenario 1 0 60).total = 105
    ∧ (compute_oee dbScenario 1 0 60).performance = 105 / 100
    ∧ (compute_oee dbScenario 1 0 60).quality = 100 / 105
    ∧ (compute_oee dbScenario 1 0 60).oee = (50 / 60) * (105 / 100) * (100 / 105) := by
  have hstates : oeeStates dbScenario 1 0 60 = [⟨1, 5, 55, MState.RUN, none⟩] := by
    norm_num [oeeStates, dbScenario, List.filter_cons]
  have hcounts : oeeCounts dbScenario 1 0 60 = [⟨1, 5, 55, 100, 5, 105, 2⟩] := by
    norm_num [oeeCounts, dbScenario, List.filter_cons]
  have hol : _overlap (5 : ℚ) 55 0 60 = 50 := by
    norm_num [_overlap, _minutes, max_def, min_def]
  have hfrac : bucketFrac ⟨1, 5, 55, 100, 5, 105, 2⟩ 0 60 = 1 := by
    norm_num [bucketFrac, hol, _minutes, max_def]
  have hplanned : _minutes (0 : ℚ) 60 = 60 := by
    norm_num [_minutes, max_def]
  have hrun : oeeRunMin dbScenario 1 0 60 = 50 := by
    norm_num [oeeRunMin, hstates, List.filter_cons, hol]
  have hgood : oeeGood dbScenario 1 0 60 = 100 := by
    norm_num [oeeGood, hcounts, hfrac, pyRound]
  have hscrap : oeeScrap dbScenario 1 0 60 = 5 := by
    norm_num [oeeScrap, hcounts, hfrac, pyRound]
  have htotal : oeeTotal dbScenario 1 0 60 = 105 := by
    norm_num [oeeTotal, hcounts, hfrac, pyRound]
  have hideal : oeeIdealUnits dbScenario 1 0 60 = 100 := by
    norm_num [oeeIdealUnits, hcounts, hol]
  refine ⟨?_, ?_, ?_, ?_, ?_, ?_, ?_, ?_, ?_⟩
  · rw [compute_oee_planned_min, hplanned]
  · rw [compute_oee_run_min, hrun]
  · rw [compute_oee_availability, hplanned, hrun]
    norm_num
  · rw [compute_oee_good, hgood]
  · rw [compute_oee_scrap, hscrap]
  · rw [compute_oee_total, htotal]
  · rw [compute_oee_performance, htotal, hideal]
    norm_num
  · rw [compute_oee_quality, htotal, hgood]
    norm_num
  · rw [compute_oee_oee, compute_oee_availability, compute_oee_performance,
      compute_oee_quality, hplanned, hrun, htotal, hgood, hideal]
    norm_num

instance : IsTotal Resource idLE :=
  ⟨fun a b => le_total a.id b.id⟩

instance : IsTrans Resource idLE :=
  ⟨fun _ _ _ hab hbc => le_trans hab hbc⟩

theorem sortedActives_perm (db : DB) :
    (sortedActives db).Perm (db.resources.filter (fun r => r.is_active)) :=
  List.perm_insertionSort idLE _

/-- `run_ratio` of a resource in the ranker:
`oee.run_min / max(oee.planned_min, 1e-9)`. -/
def runShareOf (db : DB) (s e : ℚ) (rid : ℕ) : ℚ :=
  (compute_oee db rid s e).run_min / max (compute_oee db rid s e).planned_min (1e-9)

/-- `stop_ratio` of a resource in the ranker. -/
def stopShareOf (db : DB) (s e : ℚ) (rid : ℕ) : ℚ :=
  (compute_oee db rid s e).stop_min / max (compute_oee db rid s e).planned_min (1e-9)

/-- The ranker's heuristic score of a resource:
`0.8 * run_ratio + 0.2 * stop_ratio`. -/
def scoreOf (db : DB) (s e : ℚ) (rid : ℕ) : ℚ :=
  (0.8 : ℚ) * runShareOf db s e rid + (0.2 : ℚ) * stopShareOf db s e rid

theorem itemOf_resource_id (db : DB) (s e : ℚ) (r : Resource) :
    (itemOf db s e r).resource_id = r.id := rfl

theorem itemOf_score (db : DB) (s e : ℚ) (r : Resource) :
    (itemOf db s e r).score = scoreOf db s e r.id := rfl

theorem itemOf_run_share (db : DB) (s e : ℚ) (r : Resource) :
    (itemOf db s e r).run_share = runShareOf db s e r.id := rfl

theorem itemOf_stop_share (db : DB) (s e : ℚ) (r : Resource) :
    (itemOf db s e r).stop_share = stopShareOf db s e r.id := rfl

/-- The running best over a nonempty prefix, seeded with the first item. -/
def foldBest (b : RankItem) (l : List RankItem) : RankItem := l.foldl bestStep b

theorem foldOpt_eq :
    ∀ (l : List RankItem) (b : RankItem),
      l.foldl (fun acc item =>
        match acc with
        | none => some item
        | some b => some (bestStep b item)) (some b) = some (foldBest b l) := by
  intro l
  induction l with
  | nil => intro b; rfl
  | cons x t ih => intro b; exact ih (bestStep b x)

theorem bestStep_left_le (b x : RankItem) : b.score ≤ (bestStep b x).score := by
  unfold bestStep
  split_ifs with h
  · exact le_of_lt h
  · exact le_refl _

theorem bestStep_right_le (b x : RankItem) : x.score ≤ (bestStep b x).score := by
  unfold bestStep
  split_ifs with h
  · exact le_refl _
  · exact not_lt.mp h

theorem foldBest_mem : ∀ (l : List RankItem) (b : RankItem), foldBest b l ∈ b :: l := by
  intro l
  induction l with
  | nil => intro b; simp [foldBest]
  | cons x t ih =>
    intro b
    have hmem := ih (bestStep b x)
    have heq : foldBest b (x :: t) = foldBest (bestStep b x) t := rfl
    rw [heq]
    rcases List.mem_cons.mp hmem with h | h
    · rw [h]
      unfold bestStep
      split_ifs
      · exact List.mem_cons_of_mem _ (List.mem_cons_self _ _)
      · exact List.mem_cons_self _ _
    · exact List.mem_cons_of_mem _ (List.mem_cons_of_mem _ h)

theorem foldBest_le :
    ∀ (l : List RankItem) (b : RankItem), ∀ x ∈ b :: l, x.score ≤ (foldBest b l).score := by
  intro l
  induction l with
  | nil =>
    intro b x hx
    rcases List.mem_cons.mp hx with rfl | h
    · exact le_refl _
    · simp at h
  | cons y t ih =>
    intro b x hx
    have heq : foldBest b (y :: t) = foldBest (bestStep b y) t := rfl
    rw [heq]
    rcases List.mem_cons.mp hx with rfl | hx'
    · exact le_trans (bestStep_left_le x y)
        (ih (bestStep x y) _ (List.mem_cons_self _ _))
    · rcases List.mem_cons.mp hx' with rfl | hx''
      · exact le_trans (bestStep_right_le b x)
          (ih (bestStep b x) _ (List.mem_cons_self _ _))
      · exact ih (bestStep b y) x (List.mem_cons_of_mem _ hx'')

theorem foldBest_first_max :
    ∀ (l : List RankItem) (b : RankItem),
      ∃ pre post, b :: l = pre ++ (foldBest b l) :: post
        ∧ ∀ x ∈ pre, x.score < (foldBest b l).score := by
  intro l
  induction l using List.reverseRecOn with
  | nil => intro b; exact ⟨[], [], rfl, by simp⟩
  | append_singleton l' x ih =>
    intro b
    have heq : foldBest b (l' ++ [x]) = bestStep (foldBest b l') x := by
      unfold foldBest
      rw [List.foldl_append]
      rfl
    by_cases h : (foldBest b l').score < x.score
    · have hb : foldBest b (l' ++ [x]) = x := by
        rw [heq]
        unfold bestStep
        rw [if_pos h]
      refine ⟨b :: l', [], ?_, ?_⟩
      · rw [hb]
        simp
      · intro y hy
        rw [hb]
        exact lt_of_le_of_lt (foldBest_le l' b y hy) h
    · have hb : foldBest b (l' ++ [x]) = foldBest b l' := by
        rw [heq]
        unfold bestStep
        rw [if_neg h]
      obtain ⟨pre, post, hdec, hpre⟩ := ih b
      refine ⟨pre, post ++ [x], ?_, ?_⟩
      · rw [hb, show b :: (l' ++ [x]) = (b :: l') ++ [x] from rfl, hdec]
        simp
      · intro y hy
        rw [hb]
        exact hpre y hy

theorem detect_eq_none (db : DB) (s e : ℚ) (h : sortedActives db = []) :
    detect_bottleneck_v1 db s e = none := by
  simp [detect_bottleneck_v1, h]

theorem detect_eq_some (db : DB) (s e : ℚ) (r : Resource) (rest : List Resource)
    (h : sortedActives db = r :: rest) :
    detect_bottleneck_v1 db s e = some
      { window_start := s
        window_end := e
        winner_id := (foldBest (itemOf db s e r) (rest.map (itemOf db s e))).resource_id
        winner_name := (foldBest (itemOf db s e r) (rest.map (itemOf db s e))).name
        score := (foldBest (itemOf db s e r) (rest.map (itemOf db s e))).score
        top_stop_reasons := _top_reasons db
          (foldBest (itemOf db s e r) (rest.map (itemOf db s e))).resource_id s e 3
        ranking := List.insertionSort scoreGE ((r :: rest).map (itemOf db s e)) } := by
  simp only [detect_bottleneck_v1, h, List.map_cons, List.foldl_cons]
  rw [foldOpt_eq]

/-- Claim C1: the Bottleneck Ranker never fabricates a winner.  With zero
active resources the source crashes on `best["resource_id"]` instead of
returning (the `none` result of the embedding); whenever a
`BottleneckResult` is returned, its winner is one of the active
resources. -/
theorem bottleneck_winner_active (db : DB) (s e : ℚ) :
    (db.resources.filter (fun r => r.is_active) = [] →
      detect_bottleneck_v1 db s e = none)
    ∧ ∀ res, detect_bottleneck_v1 db s e = some res →
        res.winner_id ∈ (db.resources.filter (fun r => r.is_active)).map
          (fun r => r.id) := by
  constructor
  · intro h
    apply detect_eq_none
    unfold sortedActives
    rw [h]
    rfl
  · intro res hres
    cases hl : sortedActives db with
    | nil =>
      rw [detect_eq_none db s e hl] at hres
      exact Option.noConfusion hres
    | cons r rest =>
      rw [detect_eq_some db s e r rest hl, Option.some.injEq] at hres
      subst hres
      have hmem : foldBest (itemOf db s e r) (rest.map (itemOf db s e))
          ∈ (r :: rest).map (itemOf db s e) := by
        rw [List.map_cons]
        exact foldBest_mem _ _
      obtain ⟨r', hr', heq⟩ := List.mem_map.mp hmem
      have hract : r' ∈ db.resources.filter (fun r => r.is_active) := by
        rw [← hl] at hr'
        exact (sortedActives_perm db).mem_iff.mp hr'
      exact List.mem_map.mpr ⟨r', hract, by rw [← heq]; rfl⟩

/-- Database with a single active resource, used to exercise the ranker. -/
def dbOneActive : DB := ⟨[⟨1, "M1", "machine", true⟩], [], [], [], [], []⟩

/-- The result the ranker produces on `dbOneActive` over `[0, 60]`. -/
def bnWitnessRes : BottleneckResult :=
  ⟨0, 60, 1, "M1", 0, [], [⟨1, "M1", 0, 0, 0, 0, 0, 0, 0⟩]⟩

theorem detect_dbOneActive_eval :
    detect_bottleneck_v1 dbOneActive 0 60 = some bnWitnessRes := by
  have hl : sortedActives dbOneActive = [⟨1, "M1", "machine", true⟩] := by
    norm_num [sortedActives, dbOneActive, List.insertionSort, List.filter_cons]
  rw [detect_eq_some dbOneActive 0 60 ⟨1, "M1", "machine", true⟩ [] hl]
  have hitem : itemOf dbOneActive 0 60 ⟨1, "M1", "machine", true⟩
      = ⟨1, "M1", 0, 0, 0, 0, 0, 0, 0⟩ := by
    norm_num [itemOf, compute_oee, oeeRunMin, oeeStopMin, oeeGood, oeeScrap,
      oeeTotal, oeeIdealUnits, oeeStates, oeeCounts, dbOneActive,
      List.filter_nil, _minutes, max_def]
  have hreasons : _top_reasons dbOneActive 1 0 60 3 = [] := by
    norm_num [_top_reasons, dbOneActive, List.filter_nil, List.insertionSort]
  simp only [List.map_nil, List.map_cons, foldBest, List.foldl_nil, hitem, hreasons,
    bnWitnessRes, List.insertionSort, List.orderedInsert]

theorem bottleneck_winner_active_witness :
    detect_bottleneck_v1 (⟨[], [], [], [], [], []⟩ : DB) 0 60 = none
    ∧ bnWitnessRes.winner_id ∈ (dbOneActive.resources.filter
        (fun r => r.is_active)).map (fun r => r.id) :=
  ⟨(bottleneck_winner_active ⟨[], [], [], [], [], []⟩ 0 60).1 rfl,
   (bottleneck_winner_active dbOneActive 0 60).2 bnWitnessRes detect_dbOneActive_eval⟩

theorem mem_map_itemOf_score (db : DB) (s e : ℚ) (l : List Resource) :
    ∀ x ∈ l.map (itemOf db s e), x.score = scoreOf db s e x.resource_id := by
  intro x hx
  obtain ⟨r', _, rfl⟩ := List.mem_map.mp hx
  rfl

/-- Claim C6: the ranker iterates the active resources in id-ascending
order; every ranking entry's score is
`0.8 * (run_min / max(planned_min, 1e-9)) + 0.2 * (stop_min / max(planned_min, 1e-9))`
of that resource's OEE result; the winner attains the maximum score and
is the first maximum in iteration order (every strictly earlier resource
scores strictly less); consequently, of two active resources with equal
run ratio, the one with strictly larger stop ratio wins. -/
theorem bottleneck_score_first_max (db : DB) (s e : ℚ) :
    List.Sorted idLE (sortedActives db)
    ∧ ∀ res, detect_bottleneck_v1 db s e = some res →
        (∀ item ∈ res.ranking,
          item.score
            = (0.8 : ℚ) * ((compute_oee db item.resource_id s e).run_min
                / max (compute_oee db item.resource_id s e).planned_min (1e-9))
              + (0.2 : ℚ) * ((compute_oee db item.resource_id s e).stop_min
                / max (compute_oee db item.resource_id s e).planned_min (1e-9)))
        ∧ res.score = scoreOf db s e res.winner_id
        ∧ (∃ pre w post,
            (sortedActives db).map (itemOf db s e) = pre ++ w :: post
            ∧ res.winner_id = w.resource_id
            ∧ res.score = w.score
            ∧ (∀ x ∈ sortedActives db, scoreOf db s e x.id ≤ w.score)
            ∧ (∀ x ∈ pre, x.score < w.score))
        ∧ (∀ a b, sortedActives db = [a, b] →
            runShareOf db s e a.id = runShareOf db s e b.id →
            stopShareOf db s e a.id < stopShareOf db s e b.id →
            res.winner_id = b.id) := by
  refine ⟨List.sorted_insertionSort idLE _, ?_⟩
  intro res hres
  cases hl : sortedActives db with
  | nil =>
    rw [detect_eq_none db s e hl] at hres
    exact Option.noConfusion hres
  | cons r rest =>
    rw [detect_eq_some db s e r rest hl, Option.some.injEq] at hres
    subst hres
    refine ⟨?_, ?_, ?_, ?_⟩
    · -- every ranking entry scores by the formula
      intro item hitem
      have hmem : item ∈ ((r :: rest).map (itemOf db s e)) :=
        (List.perm_insertionSort scoreGE _).mem_iff.mp hitem
      have := mem_map_itemOf_score db s e (r :: rest) item hmem
      exact this
    · -- the reported score is the winner's score by the formula
      have hmem : foldBest (itemOf db s e r) (rest.map (itemOf db s e))
          ∈ (r :: rest).map (itemOf db s e) := by
        rw [List.map_cons]
        exact foldBest_mem _ _
      exact mem_map_itemOf_score db s e (r :: rest) _ hmem
    · -- the winner is the first maximum in iteration order
      obtain ⟨pre, post, hdec, hpre⟩ :=
        foldBest_first_max (rest.map (itemOf db s e)) (itemOf db s e r)
      refine ⟨pre, foldBest (itemOf db s e r) (rest.map (itemOf db s e)), post,
        ?_, rfl, rfl, ?_, hpre⟩
      · rw [List.map_cons]
        exact hdec
      · intro x hx
        have hxm : itemOf db s e x ∈ itemOf db s e r :: rest.map (itemOf db s e) := by
          rw [← List.map_cons]
          exact List.mem_map.mpr ⟨x, hx, rfl⟩
        have := foldBest_le (rest.map (itemOf db s e)) (itemOf db s e r) _ hxm
        rw [itemOf_score] at this
        exact this
    · -- two active resources, equal run ratio: larger stop ratio wins
      intro a b hab hrun hstop
      injection hab with h1 h2
      subst h1
      subst h2
      have hlt : (itemOf db s e r).score < (itemOf db s e b).score := by
        rw [itemOf_score, itemOf_score]
        unfold scoreOf
        rw [hrun]
        linarith
      show (foldBest (itemOf db s e r) ([b].map (itemOf db s e))).resource_id = b.id
      simp only [List.map_cons, List.map_nil, foldBest, List.foldl_cons, List.foldl_nil]
      unfold bestStep
      rw [if_pos hlt]
      rfl

theorem mstateRunStop : (MState.RUN = MState.STOP) = False := eq_false (by decide)

theorem mstateStopRun : (MState.STOP = MState.RUN) = False := eq_false (by decide)

/-- Two active resources with identical run ratio; the second also
stops: the bottleneck scenario database. -/
def dbTwo : DB :=
  ⟨[⟨1, "A", "machine", true⟩, ⟨2, "B", "machine", true⟩],
   [⟨1, 0, 50, MState.RUN, none⟩, ⟨2, 10, 60, MState.RUN, none⟩,
    ⟨2, 60, 80, MState.STOP, none⟩],
   [], [], [], []⟩

/-- Ranking item of resource 1 on `dbTwo` over `[0, 100]`. -/
def itemA : RankItem := ⟨1, "A", 2/5, 1/2, 0, 1/2, 0, 0, 0⟩

/-- Ranking item of resource 2 on `dbTwo` over `[0, 100]`. -/
def itemB : RankItem := ⟨2, "B", 11/25, 1/2, 1/5, 1/2, 0, 0, 0⟩

/-- The ranker's result on `dbTwo` over `[0, 100]`. -/
def bnResTwo : BottleneckResult := ⟨0, 100, 2, "B", 11/25, [⟨none, 20⟩], [itemB, itemA]⟩

theorem sortedActives_dbTwo :
    sortedActives dbTwo
      = [⟨1, "A", "machine", true⟩, ⟨2, "B", "machine", true⟩] := by
  norm_num [sortedActives, dbTwo, List.insertionSort, List.orderedInsert,
    List.filter_cons, idLE]

theorem itemA_eval : itemOf dbTwo 0 100 ⟨1, "A", "machine", true⟩ = itemA := by
  norm_num [itemOf, itemA, compute_oee, oeeRunMin, oeeStopMin, oeeGood, oeeScrap,
    oeeTotal, oeeIdealUnits, oeeStates, oeeCounts, dbTwo, List.filter_cons,
    _overlap, _minutes, max_def, min_def, mstateRunStop, mstateStopRun]

theorem itemB_eval : itemOf dbTwo 0 100 ⟨2, "B", "machine", true⟩ = itemB := by
  norm_num [itemOf, itemB, compute_oee, oeeRunMin, oeeStopMin, oeeGood, oeeScrap,
    oeeTotal, oeeIdealUnits, oeeStates, oeeCounts, dbTwo, List.filter_cons,
    _overlap, _minutes, max_def, min_def, mstateRunStop, mstateStopRun]

theorem topReasons_dbTwo : _top_reasons dbTwo 2 0 100 3 = [⟨none, 20⟩] := by
  norm_num [_top_reasons, dbTwo, List.filter_cons, addReason, _overlap, _minutes,
    max_def, min_def, List.insertionSort, List.orderedInsert, reasonGE,
    mstateRunStop, mstateStopRun]

theorem detect_dbTwo_eval : detect_bottleneck_v1 dbTwo 0 100 = some bnResTwo := by
  rw [detect_eq_some dbTwo 0 100 ⟨1, "A", "machine", true⟩
    [⟨2, "B", "machine", true⟩] sortedActives_dbTwo]
  have hlt : itemA.score < itemB.score := by norm_num [itemA, itemB]
  have hfold : foldBest (itemOf dbTwo 0 100 ⟨1, "A", "machine", true⟩)
      ([⟨2, "B", "machine", true⟩].map (itemOf dbTwo 0 100)) = itemB := by
    simp only [List.map_cons, List.map_nil, foldBest, List.foldl_cons, List.foldl_nil,
      itemA_eval, itemB_eval, bestStep, if_pos hlt]
  have hrank : List.insertionSort scoreGE
      (([⟨1, "A", "machine", true⟩, ⟨2, "B", "machine", true⟩] :
        List Resource).map (itemOf dbTwo 0 100)) = [itemB, itemA] := by
    simp only [List.map_cons, List.map_nil, itemA_eval, itemB_eval]
    norm_num [List.insertionSort, List.orderedInsert, scoreGE, itemA, itemB]
  rw [hfold, hrank]
  have hwin : itemB.resource_id = 2 := rfl
  rw [hwin, topReasons_dbTwo]
  rfl

theorem runShare_dbTwo_1 : runShareOf dbTwo 0 100 1 = 1/2 := by
  have h := congrArg RankItem.run_share itemA_eval
  rw [itemOf_run_share] at h
  simpa [itemA] using h

theorem runShare_dbTwo_2 : runShareOf dbTwo 0 100 2 = 1/2 := by
  have h := congrArg RankItem.run_share itemB_eval
  rw [itemOf_run_share] at h
  simpa [itemB] using h

theorem stopShare_dbTwo_1 : stopShareOf dbTwo 0 100 1 = 0 := by
  have h := congrArg RankItem.stop_share itemA_eval
  rw [itemOf_stop_share] at h
  simpa [itemA] using h

theorem stopShare_dbTwo_2 : stopShareOf dbTwo 0 100 2 = 1/5 := by
  have h := congrArg RankItem.stop_share itemB_eval
  rw [itemOf_stop_share] at h
  simpa [itemB] using h

theorem bottleneck_score_first_max_witness :
    bnResTwo.winner_id = 2
    ∧ bnResTwo.score = scoreOf dbTwo 0 100 bnResTwo.winner_id :=
  ⟨((bottleneck_score_first_max dbTwo 0 100).2 bnResTwo detect_dbTwo_eval).2.2.2
      ⟨1, "A", "machine", true⟩ ⟨2, "B", "machine", true⟩ sortedActives_dbTwo
      (by show runShareOf dbTwo 0 100 1 = runShareOf dbTwo 0 100 2
          rw [runShare_dbTwo_1, runShare_dbTwo_2])
      (by show stopShareOf dbTwo 0 100 1 < stopShareOf dbTwo 0 100 2
          rw [stopShare_dbTwo_1, stopShare_dbTwo_2]
          norm_num),
   ((bottleneck_score_first_max dbTwo 0 100).2 bnResTwo detect_dbTwo_eval).2.1⟩
